import Mathlib

/-!
Verification of the async synchronization primitives of the repository
(Mutex, MutexRW, Latch, PromiseBarrier) against their natural-language
specification.

The TypeScript source builds every primitive out of chained single-settlement
promises.  The shallow embedding below models each class instance together
with the scheduler's view of its promises as an explicit state, and models
every synchronous segment of the source (the code between two suspension
points, which JavaScript executes atomically) as one transition of a step
function.  Interleavings of concurrent callers are lists of such events; the
models are nondeterministic supersets of the real microtask orderings, so any
invariant proved over all event sequences holds in particular for the real
scheduler.
-/

namespace AsyncTs

/-! Mutex.

Source (src/unnamed/part_000):

  function releaseStub() { return; }

  class Mutex {
    private m_lastPromise: Promise.void. = Promise.resolve();
    public async obtain(bypass = false): Promise.function. {
      let release = releaseStub;
      if (bypass) return release;
      const lastPromise = this.m_lastPromise;
      this.m_lastPromise = new Promise(resolve =. (release = resolve));
      await lastPromise;
      return release;
    }
  }

Wait-chain promises are numbered: promise 0 is the initial resolved
Promise.resolve(); the i-th non-bypass obtain call creates promise i,
installs it as the tail and suspends on promise i-1.  The fields granted and
released record which acquirers have resumed from their await (and therefore
hold the critical section until they release) and which chain promises have
been settled by a release-token invocation. -/

/-- Release token handed out by Mutex.obtain: either the no-op releaseStub
(bypass mode) or the resolver of wait-chain promise i. -/
inductive Token where
  | stub : Token
  | resolver : Nat → Token
deriving DecidableEq

/-- Embedding of the source's releaseStub: a function that does nothing. -/
def releaseStub : Unit → Unit := fun _ => ()

/-- State of one Mutex instance plus the scheduler's bookkeeping for its
wait-chain promises.  m_lastPromise is the id of the current tail promise
(promise 0 starts resolved); granted lists acquirers whose await on the
previous tail has resolved; released lists wait-chain promises settled by
invoking the corresponding release token. -/
structure Mutex where
  m_lastPromise : Nat
  granted : List Nat
  released : List Nat
deriving DecidableEq

/-- A fresh Mutex: tail is the initially resolved promise 0, nobody granted,
nothing released. -/
def Mutex.init : Mutex := { m_lastPromise := 0, granted := [], released := [] }

/-- Wait-chain promise j is settled: promise 0 starts resolved; promise i
(i at least 1) is settled exactly when holder i has invoked its release
token. -/
def Mutex.settled (s : Mutex) (j : Nat) : Prop := j = 0 ∨ j ∈ s.released

instance (s : Mutex) (j : Nat) : Decidable (s.settled j) := by
  unfold Mutex.settled; infer_instance

/-- Synchronous prologue of Mutex.obtain, straight from the source: on bypass
it returns the stub token at once, touching nothing; otherwise it captures the
current tail, installs a fresh promise as the new tail and will suspend on the
captured one.  Returns the new state, the promise id the call awaits before
returning (none when it returns without suspending), and the release token the
caller will receive. -/
def Mutex.obtain (s : Mutex) (bypass : Bool) : Mutex × Option Nat × Token :=
  if bypass then (s, none, Token.stub)
  else ({ s with m_lastPromise := s.m_lastPromise + 1 },
        some s.m_lastPromise, Token.resolver (s.m_lastPromise + 1))

/-- Invoking a release token: the stub does nothing; resolver i settles
wait-chain promise i (settling an already settled promise is a no-op, as for
JavaScript promises). -/
def Mutex.invoke (s : Mutex) (t : Token) : Mutex :=
  match t with
  | Token.stub => s
  | Token.resolver i => { s with released := s.released.insert i }

/-- Scheduler events for a Mutex: a call of obtain (with its bypass flag), the
grant of acquirer i (its await on promise i-1 resumes, so the caller enters
the critical section), and holder i invoking its release token. -/
inductive MutexEvent where
  | acquire : Bool → MutexEvent
  | grant : Nat → MutexEvent
  | release : Nat → MutexEvent
deriving DecidableEq

/-- One scheduler step of a Mutex.  grant i is enabled exactly when acquirer i
exists, has not yet resumed, and the promise it awaits (i-1) is settled;
release i is enabled once holder i has been granted (the token only reaches
the caller when obtain returns). -/
def mutexStep (s : Mutex) : MutexEvent → Option Mutex
  | MutexEvent.acquire b => some (Mutex.obtain s b).1
  | MutexEvent.grant i =>
      if 1 ≤ i ∧ i ≤ s.m_lastPromise ∧ i ∉ s.granted ∧ s.settled (i - 1) then
        some { s with granted := s.granted.insert i }
      else none
  | MutexEvent.release i =>
      if i ∈ s.granted then some (s.invoke (Token.resolver i)) else none

/-- Execution of a whole event sequence from a fresh Mutex; none means the
sequence asked for a step that is not enabled. -/
def mutexRun (es : List MutexEvent) : Option Mutex :=
  es.foldlM mutexStep Mutex.init

/-- Inductive invariant of the Mutex wait chain: granted acquirers are
existing tickets, releases only come from grant holders, and an acquirer can
only have resumed if its predecessor's promise was settled. -/
def MutexInv (s : Mutex) : Prop :=
  (∀ i ∈ s.granted, 1 ≤ i ∧ i ≤ s.m_lastPromise) ∧
  (∀ i ∈ s.released, i ∈ s.granted) ∧
  (∀ i ∈ s.granted, 2 ≤ i → i - 1 ∈ s.released)

lemma mutexInv_init : MutexInv Mutex.init := by
  refine ⟨?_, ?_, ?_⟩ <;> intro i hi <;> simp [Mutex.init] at hi

lemma mutexStep_inv {s s1 : Mutex} {e : MutexEvent} (hinv : MutexInv s)
    (h : mutexStep s e = some s1) : MutexInv s1 := by
  obtain ⟨h1, h2, h3⟩ := hinv
  cases e with
  | acquire b =>
      simp only [mutexStep, Mutex.obtain] at h
      cases b with
      | false =>
          simp only [Bool.false_eq_true, if_false] at h
          cases h
          refine ⟨fun i hi => ?_, h2, h3⟩
          exact ⟨(h1 i hi).1, (h1 i hi).2.trans (Nat.le_succ _)⟩
      | true =>
          simp only [if_true] at h
          cases h
          exact ⟨h1, h2, h3⟩
  | grant i =>
      simp only [mutexStep] at h
      split at h
      · rename_i hg
        cases h
        obtain ⟨hg1, hg2, _, hg4⟩ := hg
        refine ⟨fun j hj => ?_, fun j hj => ?_, fun j hj hj2 => ?_⟩
        · rcases List.mem_insert_iff.mp hj with hj | hj
          · subst hj; exact ⟨hg1, hg2⟩
          · exact h1 j hj
        · exact List.mem_insert_iff.mpr (Or.inr (h2 j hj))
        · rcases List.mem_insert_iff.mp hj with hj | hj
          · subst hj
            rcases hg4 with hz | hr
            · omega
            · exact hr
          · exact h3 j hj hj2
      · exact absurd h (by simp)
  | release i =>
      simp only [mutexStep] at h
      split at h
      · rename_i hg
        cases h
        simp only [Mutex.invoke]
        refine ⟨h1, fun j hj => ?_, fun j hj hj2 => ?_⟩
        · rcases List.mem_insert_iff.mp hj with hj | hj
          · exact hj ▸ hg
          · exact h2 j hj
        · exact List.mem_insert_iff.mpr (Or.inr (h3 j hj hj2))
      · exact absurd h (by simp)

lemma mutexFold_inv :
    ∀ (es : List MutexEvent) (s0 s1 : Mutex), MutexInv s0 →
      es.foldlM mutexStep s0 = some s1 → MutexInv s1 := by
  intro es
  induction es with
  | nil =>
      intro s0 s1 h h2
      simp only [List.foldlM_nil, pure, Option.some.injEq] at h2
      exact h2 ▸ h
  | cons e es ih =>
      intro s0 s1 h h2
      rw [List.foldlM_cons] at h2
      rcases Option.bind_eq_some.mp h2 with ⟨m, hm, hrest⟩
      exact ih m s1 (mutexStep_inv h hm) hrest

lemma mutexRun_inv {es : List MutexEvent} {s : Mutex} (h : mutexRun es = some s) :
    MutexInv s :=
  mutexFold_inv es Mutex.init s mutexInv_init h

/-- In an invariant state, every acquirer strictly below a granted acquirer has
already released: the wait chain forces the whole prefix to have completed. -/
lemma mutex_released_below {s : Mutex} (hinv : MutexInv s) :
    ∀ j, j ∈ s.granted → ∀ i, 1 ≤ i → i < j → i ∈ s.released := by
  intro j
  induction j using Nat.strong_induction_on with
  | _ j ih =>
    intro hj i hi1 hij
    have h2 : 2 ≤ j := by omega
    have hrel : j - 1 ∈ s.released := hinv.2.2 j hj h2
    by_cases hcase : i = j - 1
    · exact hcase ▸ hrel
    · exact ih (j - 1) (by omega) (hinv.2.1 _ hrel) i hi1 (by omega)

/-- Claim C1: mutual exclusion for the Mutex.  In every state reachable by any
interleaving of non-bypass obtain calls, grants and release-token invocations,
at most one acquirer is inside the critical section (granted and not yet
released): any two such holders are equal. -/
theorem C1_mutex_mutual_exclusion :
    ∀ (es : List MutexEvent) (s : Mutex), mutexRun es = some s →
      ∀ i j, i ∈ s.granted → i ∉ s.released → j ∈ s.granted → j ∉ s.released →
        i = j := by
  intro es s hrun i j hig hir hjg hjr
  have hinv := mutexRun_inv hrun
  rcases lt_trichotomy i j with h | h | h
  · exact absurd (mutex_released_below hinv j hjg i (hinv.1 i hig).1 h) hir
  · exact h
  · exact absurd (mutex_released_below hinv i hig j (hinv.1 j hjg).1 h) hjr

/-- Witness for C1: a concrete two-acquirer run in which acquirer 1 holds the
critical section; the mutual-exclusion theorem applies to it. -/
theorem C1_witness :
    mutexRun [MutexEvent.acquire false, MutexEvent.acquire false,
        MutexEvent.grant 1] = some { m_lastPromise := 2, granted := [1], released := [] } ∧
      (1 : Nat) = 1 :=
  ⟨by decide,
   C1_mutex_mutual_exclusion
     [MutexEvent.acquire false, MutexEvent.acquire false, MutexEvent.grant 1]
     { m_lastPromise := 2, granted := [1], released := [] }
     (by decide) 1 1 (by decide) (by decide) (by decide) (by decide)⟩

/-- Granted acquirers of a run are exactly the grant events that occurred:
membership in granted implies a grant event in the trace. -/
lemma mutexFold_grant_mem :
    ∀ (es : List MutexEvent) (s0 s1 : Mutex),
      es.foldlM mutexStep s0 = some s1 → ∀ i, i ∈ s1.granted →
        i ∈ s0.granted ∨ MutexEvent.grant i ∈ es := by
  intro es
  induction es with
  | nil =>
      intro s0 s1 h i hi
      simp only [List.foldlM_nil, pure, Option.some.injEq] at h
      exact Or.inl (h ▸ hi)
  | cons e es ih =>
      intro s0 s1 h i hi
      rw [List.foldlM_cons] at h
      rcases Option.bind_eq_some.mp h with ⟨m, hm, hrest⟩
      rcases ih m s1 hrest i hi with hmem | hev
      · cases e with
        | acquire b =>
            simp only [mutexStep, Mutex.obtain] at hm
            cases b with
            | false =>
                simp only [Bool.false_eq_true, if_false, Option.some.injEq] at hm
                cases hm
                exact Or.inl hmem
            | true =>
                simp only [if_true, Option.some.injEq] at hm
                cases hm
                exact Or.inl hmem
        | grant k =>
            simp only [mutexStep] at hm
            split at hm
            · cases hm
              rcases List.mem_insert_iff.mp hmem with hk | hk
              · exact Or.inr (by simp [hk])
              · exact Or.inl hk
            · exact absurd hm (by simp)
        | release k =>
            simp only [mutexStep] at hm
            split at hm
            · cases hm
              simp only [Mutex.invoke] at hmem
              exact Or.inl hmem
            · exact absurd hm (by simp)
      · exact Or.inr (List.mem_cons_of_mem _ hev)

/-- FIFO ticketing of the Mutex wait chain: whenever the grant of acquirer j
fires at the end of a valid run, every earlier caller i (i below j in call
order) was already granted within the preceding events. -/
lemma mutex_fifo :
    ∀ (es : List MutexEvent) (j : Nat) (s : Mutex),
      mutexRun (es ++ [MutexEvent.grant j]) = some s →
      ∀ i, 1 ≤ i → i < j → MutexEvent.grant i ∈ es := by
  intro es j s h i hi1 hij
  unfold mutexRun at h
  rw [List.foldlM_append] at h
  rcases Option.bind_eq_some.mp h with ⟨m, hm, hlast⟩
  rw [List.foldlM_cons] at hlast
  rcases Option.bind_eq_some.mp hlast with ⟨s2, hstep, hnil⟩
  have hinv := mutexFold_inv es Mutex.init m mutexInv_init hm
  simp only [mutexStep] at hstep
  split at hstep
  · rename_i hg
    obtain ⟨hj1, hj2, hj3, hj4⟩ := hg
    have hrel : j - 1 ∈ m.released := by
      rcases hj4 with h0 | hr
      · omega
      · exact hr
    have hjg : j - 1 ∈ m.granted := hinv.2.1 _ hrel
    have higr : i ∈ m.granted := by
      by_cases hc : i = j - 1
      · exact hc ▸ hjg
      · exact hinv.2.1 _ (mutex_released_below hinv (j - 1) hjg i hi1 (by omega))
    rcases mutexFold_grant_mem es Mutex.init m hm i higr with h0 | hev
    · simp [Mutex.init] at h0
    · exact hev
  · exact absurd hstep (by simp)

/-- Claim C9: a bypass acquisition is a complete no-op on the lock.  The call
Mutex.obtain with bypass = true returns the stub token without suspending
(it awaits no promise), leaves m_lastPromise and all bookkeeping unchanged,
and invoking the stub token changes nothing, so bypassed calls neither wait
for nor block any other acquisition. -/
theorem C9_bypass_noop :
    ∀ (s : Mutex) (u : Unit),
      Mutex.obtain s true = (s, none, Token.stub) ∧
      releaseStub u = () ∧
      Mutex.invoke s Token.stub = s ∧
      mutexStep s (MutexEvent.acquire true) = some s := by
  intro s u
  exact ⟨rfl, rfl, rfl, rfl⟩

/-! MutexRW.

Source (src/unnamed/part_000):

  class MutexRW {
    private m_nextRWPromise: Promise.void. = Promise.resolve();
    private m_lastRWPromise: Promise.void. = Promise.resolve();
    private m_lastROPromise: Promise.unknown. = Promise.resolve();
    private roAccessCnt = 0;
    private rwAccess = false;

    public async obtainRO() {
      while (this.rwAccess) await this.m_lastRWPromise;
      ++this.roAccessCnt;
      let releaseRO = releaseStub;
      const thisROPromise = new Promise(resolve =. (releaseRO = resolve));
      this.m_lastROPromise = Promise.all([thisROPromise, this.m_lastROPromise]);
      void thisROPromise.then(() =. --this.roAccessCnt);
      return releaseRO;
    }

    public async obtainRW() {
      let releaseRW = releaseStub;
      const prevRWPromise = this.m_nextRWPromise;
      const thisRWPromise = new Promise(resolve =. (releaseRW = resolve));
      this.m_nextRWPromise = thisRWPromise;
      await prevRWPromise;
      while (this.roAccessCnt) await this.m_lastROPromise;
      this.rwAccess = true;
      this.m_lastRWPromise = thisRWPromise;
      void this.m_lastRWPromise.then(() =. (this.rwAccess = false));
      return releaseRW;
    }
  }

Readers and writers are numbered 0, 1, 2, ... by call order of obtainRO
respectively obtainRW (a writer's number is its position in the
m_nextRWPromise chain).  Each reader or writer task is in a phase marking
which synchronous segment of the source it has reached; transitions between
phases are the scheduler events.  m_lastROPromise, the nested Promise.all
join of every granted reader's promise, is represented by the set of readers
ever granted (a reader's promise is settled once it has invoked releaseRO);
m_lastRWPromise is the promise of the last writer that turned rwAccess on
(none stands for the initially resolved promise). -/

/-- Phase of one obtainRO caller: at the head of the rwAccess re-check loop;
suspended on the m_lastRWPromise it captured; past the loop with
roAccessCnt incremented and its promise folded into m_lastROPromise (holding
read access); releaseRO invoked (its promise is settled); the scheduled
decrement callback of thisROPromise.then has run. -/
inductive RPhase where
  | checking : RPhase
  | waitingRW : Option Nat → RPhase
  | granted : RPhase
  | released : RPhase
  | decremented : RPhase
deriving DecidableEq

/-- Phase of one obtainRW caller: suspended on the captured previous
m_nextRWPromise chain tail; at the head of the roAccessCnt drain loop;
suspended on the m_lastROPromise join it captured (the list of reader ids
folded into the join at capture time); past the loop with rwAccess set and
write access held; releaseRW invoked (its promise is settled); the scheduled
rwAccess-clearing callback of m_lastRWPromise.then has run. -/
inductive WPhase where
  | pending : WPhase
  | draining : WPhase
  | waitingRO : List Nat → WPhase
  | active : WPhase
  | wreleased : WPhase
  | cleared : WPhase
deriving DecidableEq

/-- State of one MutexRW instance plus scheduler bookkeeping: the phase of
every reader and writer task (list position = call order), the roAccessCnt
and rwAccess fields of the class, and m_lastRWPromise as the id of the writer
whose promise it is (none for the initial resolved promise). -/
structure MutexRW where
  readers : List RPhase
  writers : List WPhase
  roAccessCnt : Int
  rwAccess : Bool
  m_lastRWPromise : Option Nat
deriving DecidableEq

/-- A fresh MutexRW: no callers, count zero, no writer active. -/
def MutexRW.init : MutexRW :=
  { readers := [], writers := [], roAccessCnt := 0, rwAccess := false,
    m_lastRWPromise := none }

/-- Writer w's promise is settled: w has invoked releaseRW (the clearing
callback may or may not have run yet). -/
def wDone (s : MutexRW) (w : Nat) : Prop :=
  s.writers[w]? = some WPhase.wreleased ∨ s.writers[w]? = some WPhase.cleared

instance (s : MutexRW) (w : Nat) : Decidable (wDone s w) := by
  unfold wDone; infer_instance

/-- A captured m_lastRWPromise is settled: the initial promise (none) always
is, writer w's promise once w released. -/
def wPromSettled (s : MutexRW) (p : Option Nat) : Prop :=
  match p with
  | none => True
  | some w => wDone s w

instance (s : MutexRW) (p : Option Nat) : Decidable (wPromSettled s p) := by
  unfold wPromSettled
  cases p <;> infer_instance

/-- Reader r's promise is settled: r has invoked releaseRO (the decrement
callback may or may not have run yet). -/
def rSettled (s : MutexRW) (r : Nat) : Prop :=
  s.readers[r]? = some RPhase.released ∨ s.readers[r]? = some RPhase.decremented

instance (s : MutexRW) (r : Nat) : Decidable (rSettled s r) := by
  unfold rSettled; infer_instance

/-- Reader phases whose promise has been folded into the m_lastROPromise
join (every reader from its grant on). -/
def RPhase.folded : RPhase → Bool
  | RPhase.granted => true
  | RPhase.released => true
  | RPhase.decremented => true
  | _ => false

/-- The set of reader ids folded into the current m_lastROPromise join: the
join aggregates the promise of every reader granted so far, and is settled
exactly when all of them are. -/
def roFold (s : MutexRW) : List Nat :=
  (List.range s.readers.length).filter fun r =>
    match s.readers[r]? with
    | some p => p.folded
    | none => false

/-- Scheduler events of a MutexRW, one per synchronous segment of the source:
obtainRO / obtainRW are new calls; roBusy / roWake is a reader observing
rwAccess true and suspending on m_lastRWPromise / resuming; roGrant is a
reader observing rwAccess false and taking read access (increment, fold,
return of releaseRO); roRelease invokes releaseRO; roDec is the scheduled
decrement callback.  rwStart is a writer resuming from the chain await;
rwBusy / rwWake is a writer observing roAccessCnt nonzero and suspending on
the m_lastROPromise join / resuming; rwGrant is a writer observing
roAccessCnt zero and taking write access (rwAccess true, m_lastRWPromise
update, return of releaseRW); rwRelease invokes releaseRW; rwClear is the
scheduled callback clearing rwAccess. -/
inductive RWEvent where
  | obtainRO : RWEvent
  | roBusy : Nat → RWEvent
  | roWake : Nat → RWEvent
  | roGrant : Nat → RWEvent
  | roRelease : Nat → RWEvent
  | roDec : Nat → RWEvent
  | obtainRW : RWEvent
  | rwStart : Nat → RWEvent
  | rwBusy : Nat → RWEvent
  | rwWake : Nat → RWEvent
  | rwGrant : Nat → RWEvent
  | rwRelease : Nat → RWEvent
  | rwClear : Nat → RWEvent
deriving DecidableEq

/-- One scheduler step of a MutexRW; each case is the faithful effect of the
corresponding synchronous segment of obtainRO / obtainRW, enabled only when
the segment's task is in the right phase and the awaited promise (if any) is
settled. -/
def rwStep (s : MutexRW) : RWEvent → Option MutexRW
  | RWEvent.obtainRO => some { s with readers := s.readers ++ [RPhase.checking] }
  | RWEvent.roBusy r =>
      if s.readers[r]? = some RPhase.checking ∧ s.rwAccess = true then
        some { s with readers := s.readers.set r (RPhase.waitingRW s.m_lastRWPromise) }
      else none
  | RWEvent.roWake r =>
      match s.readers[r]? with
      | some (RPhase.waitingRW p) =>
          if wPromSettled s p then
            some { s with readers := s.readers.set r RPhase.checking }
          else none
      | _ => none
  | RWEvent.roGrant r =>
      if s.readers[r]? = some RPhase.checking ∧ s.rwAccess = false then
        some { s with readers := s.readers.set r RPhase.granted,
                      roAccessCnt := s.roAccessCnt + 1 }
      else none
  | RWEvent.roRelease r =>
      if s.readers[r]? = some RPhase.granted then
        some { s with readers := s.readers.set r RPhase.released }
      else none
  | RWEvent.roDec r =>
      if s.readers[r]? = some RPhase.released then
        some { s with readers := s.readers.set r RPhase.decremented,
                      roAccessCnt := s.roAccessCnt - 1 }
      else none
  | RWEvent.obtainRW => some { s with writers := s.writers ++ [WPhase.pending] }
  | RWEvent.rwStart w =>
      if s.writers[w]? = some WPhase.pending ∧ (w = 0 ∨ wDone s (w - 1)) then
        some { s with writers := s.writers.set w WPhase.draining }
      else none
  | RWEvent.rwBusy w =>
      if s.writers[w]? = some WPhase.draining ∧ s.roAccessCnt ≠ 0 then
        some { s with writers := s.writers.set w (WPhase.waitingRO (roFold s)) }
      else none
  | RWEvent.rwWake w =>
      match s.writers[w]? with
      | some (WPhase.waitingRO ro) =>
          if ∀ r ∈ ro, rSettled s r then
            some { s with writers := s.writers.set w WPhase.draining }
          else none
      | _ => none
  | RWEvent.rwGrant w =>
      if s.writers[w]? = some WPhase.draining ∧ s.roAccessCnt = 0 then
        some { s with writers := s.writers.set w WPhase.active,
                      rwAccess := true, m_lastRWPromise := some w }
      else none
  | RWEvent.rwRelease w =>
      if s.writers[w]? = some WPhase.active then
        some { s with writers := s.writers.set w WPhase.wreleased }
      else none
  | RWEvent.rwClear w =>
      if s.writers[w]? = some WPhase.wreleased then
        some { s with writers := s.writers.set w WPhase.cleared,
                      rwAccess := false }
      else none

/-- Execution of a whole event sequence from a fresh MutexRW. -/
def rwRun (es : List RWEvent) : Option MutexRW :=
  es.foldlM rwStep MutexRW.init

/-- One-step preservation of the reader/writer exclusivity invariant: rwAccess
can only be turned on when roAccessCnt is zero (the drain-loop exit and the
assignment are one synchronous segment) and roAccessCnt can only be
incremented when rwAccess is off (the re-check loop exit and the increment
are one synchronous segment). -/
lemma rwStep_c2 {s s1 : MutexRW} {e : RWEvent}
    (hinv : s.rwAccess = true → s.roAccessCnt ≤ 0)
    (h : rwStep s e = some s1) : s1.rwAccess = true → s1.roAccessCnt ≤ 0 := by
  cases e with
  | obtainRO =>
      simp only [rwStep] at h
      cases h
      exact hinv
  | roBusy r =>
      simp only [rwStep] at h
      split at h
      · cases h; exact hinv
      · exact absurd h (by simp)
  | roWake r =>
      simp only [rwStep] at h
      split at h
      · split at h
        · cases h; exact hinv
        · exact absurd h (by simp)
      · exact absurd h (by simp)
  | roGrant r =>
      simp only [rwStep] at h
      split at h
      · rename_i hg
        cases h
        intro htrue
        have h5 : s.rwAccess = true := htrue
        rw [hg.2] at h5
        exact absurd h5 (by simp)
      · exact absurd h (by simp)
  | roRelease r =>
      simp only [rwStep] at h
      split at h
      · cases h; exact hinv
      · exact absurd h (by simp)
  | roDec r =>
      simp only [rwStep] at h
      split at h
      · cases h
        intro htrue
        have h5 : s.rwAccess = true := htrue
        have h6 := hinv h5
        show s.roAccessCnt - 1 ≤ 0
        omega
      · exact absurd h (by simp)
  | obtainRW =>
      simp only [rwStep] at h
      cases h
      exact hinv
  | rwStart w =>
      simp only [rwStep] at h
      split at h
      · cases h; exact hinv
      · exact absurd h (by simp)
  | rwBusy w =>
      simp only [rwStep] at h
      split at h
      · cases h; exact hinv
      · exact absurd h (by simp)
  | rwWake w =>
      simp only [rwStep] at h
      split at h
      · split at h
        · cases h; exact hinv
        · exact absurd h (by simp)
      · exact absurd h (by simp)
  | rwGrant w =>
      simp only [rwStep] at h
      split at h
      · rename_i hg
        cases h
        intro _
        show s.roAccessCnt ≤ 0
        rw [hg.2]
      · exact absurd h (by simp)
  | rwRelease w =>
      simp only [rwStep] at h
      split at h
      · cases h; exact hinv
      · exact absurd h (by simp)
  | rwClear w =>
      simp only [rwStep] at h
      split at h
      · cases h
        intro htrue
        exact absurd htrue (by simp)
      · exact absurd h (by simp)

lemma rwFold_c2 :
    ∀ (es : List RWEvent) (s0 s1 : MutexRW),
      (s0.rwAccess = true → s0.roAccessCnt ≤ 0) →
      es.foldlM rwStep s0 = some s1 →
      (s1.rwAccess = true → s1.roAccessCnt ≤ 0) := by
  intro es
  induction es with
  | nil =>
      intro s0 s1 h h2
      simp only [List.foldlM_nil, pure, Option.some.injEq] at h2
      exact h2 ▸ h
  | cons e es ih =>
      intro s0 s1 h h2
      rw [List.foldlM_cons] at h2
      rcases Option.bind_eq_some.mp h2 with ⟨m, hm, hrest⟩
      exact ih m s1 (rwStep_c2 h hm) hrest

/-- Claim C2: reader/writer exclusivity, plus reader overlap.  First part: in
every state reachable by any interleaving of obtainRO / obtainRW segments and
releases, the writer-active flag rwAccess and a positive granted-reader count
roAccessCnt never hold simultaneously.  Second part: readers can overlap
freely: a concrete run puts two readers in the granted phase at once. -/
theorem C2_reader_writer_exclusivity :
    (∀ (es : List RWEvent) (s : MutexRW), rwRun es = some s →
        ¬(s.rwAccess = true ∧ 0 < s.roAccessCnt)) ∧
      rwRun [RWEvent.obtainRO, RWEvent.obtainRO, RWEvent.roGrant 0,
          RWEvent.roGrant 1] =
        some { readers := [RPhase.granted, RPhase.granted], writers := [],
               roAccessCnt := 2, rwAccess := false, m_lastRWPromise := none } := by
  constructor
  · intro es s hrun hand
    have := rwFold_c2 es MutexRW.init s (by intro h; exact absurd h (by simp [MutexRW.init])) hrun hand.1
    omega
  · decide

/-- Witness for C2: the exclusivity part applied to the concrete overlapping-
readers run, whose final state indeed has no writer active. -/
theorem C2_witness :
    ¬((false = true) ∧ (0 : Int) < 2) :=
  C2_reader_writer_exclusivity.1
    [RWEvent.obtainRO, RWEvent.obtainRO, RWEvent.roGrant 0, RWEvent.roGrant 1]
    { readers := [RPhase.granted, RPhase.granted], writers := [],
      roAccessCnt := 2, rwAccess := false, m_lastRWPromise := none }
    (by decide)

/-- Position i in a list exists whenever indexing yields a value. -/
lemma getElemQ_lt {α : Type} {l : List α} {i : Nat} {a : α} (h : l[i]? = some a) :
    i < l.length := by
  rcases List.getElem?_eq_some.mp h with ⟨h1, _⟩
  exact h1

/-- Writer w's promise viewed on a bare phase list: settled once w released. -/
def wDoneL (l : List WPhase) (w : Nat) : Prop :=
  l[w]? = some WPhase.wreleased ∨ l[w]? = some WPhase.cleared

/-- Writer w has been granted write access (its rwGrant segment has run):
currently active, or already released. -/
def wGrantedL (l : List WPhase) (w : Nat) : Prop :=
  l[w]? = some WPhase.active ∨ wDoneL l w

/-- FIFO invariant of the m_nextRWPromise writer chain: a writer past its
chain await (any phase except pending) must have seen its predecessor's
promise settle, so the predecessor has released. -/
def WInvW (l : List WPhase) : Prop :=
  ∀ w p, l[w]? = some p → p ≠ WPhase.pending → (w = 0 ∨ wDoneL l (w - 1))

/-- Effect of any scheduler step on the writer phase list: unchanged, a new
pending writer appended, or one writer advanced a single phase (with the
phase it came from, and for the chain-await and grant transitions the extra
facts the guard provides). -/
lemma rwStep_writers {s s1 : MutexRW} {e : RWEvent} (h : rwStep s e = some s1) :
    s1.writers = s.writers ∨
    s1.writers = s.writers ++ [WPhase.pending] ∨
    (∃ w0, s.writers[w0]? = some WPhase.pending ∧
        (w0 = 0 ∨ wDoneL s.writers (w0 - 1)) ∧
        s1.writers = s.writers.set w0 WPhase.draining) ∨
    (∃ w0 ro, s.writers[w0]? = some WPhase.draining ∧
        s1.writers = s.writers.set w0 (WPhase.waitingRO ro)) ∨
    (∃ w0 ro, s.writers[w0]? = some (WPhase.waitingRO ro) ∧
        s1.writers = s.writers.set w0 WPhase.draining) ∨
    (∃ w0, s.writers[w0]? = some WPhase.draining ∧ e = RWEvent.rwGrant w0 ∧
        s1.writers = s.writers.set w0 WPhase.active) ∨
    (∃ w0, s.writers[w0]? = some WPhase.active ∧
        s1.writers = s.writers.set w0 WPhase.wreleased) ∨
    (∃ w0, s.writers[w0]? = some WPhase.wreleased ∧
        s1.writers = s.writers.set w0 WPhase.cleared) := by
  cases e with
  | obtainRO =>
      simp only [rwStep] at h; cases h; exact Or.inl rfl
  | roBusy r =>
      simp only [rwStep] at h
      split at h
      · cases h; exact Or.inl rfl
      · exact absurd h (by simp)
  | roWake r =>
      simp only [rwStep] at h
      split at h
      · split at h
        · cases h; exact Or.inl rfl
        · exact absurd h (by simp)
      · exact absurd h (by simp)
  | roGrant r =>
      simp only [rwStep] at h
      split at h
      · cases h; exact Or.inl rfl
      · exact absurd h (by simp)
  | roRelease r =>
      simp only [rwStep] at h
      split at h
      · cases h; exact Or.inl rfl
      · exact absurd h (by simp)
  | roDec r =>
      simp only [rwStep] at h
      split at h
      · cases h; exact Or.inl rfl
      · exact absurd h (by simp)
  | obtainRW =>
      simp only [rwStep] at h; cases h
      exact Or.inr (Or.inl rfl)
  | rwStart w =>
      simp only [rwStep] at h
      split at h
      · rename_i hg
        cases h
        exact Or.inr (Or.inr (Or.inl ⟨w, hg.1, hg.2, rfl⟩))
      · exact absurd h (by simp)
  | rwBusy w =>
      simp only [rwStep] at h
      split at h
      · rename_i hg
        cases h
        exact Or.inr (Or.inr (Or.inr (Or.inl ⟨w, roFold s, hg.1, rfl⟩)))
      · exact absurd h (by simp)
  | rwWake w =>
      simp only [rwStep] at h
      split at h
      · rename_i ro heq
        split at h
        · cases h
          exact Or.inr (Or.inr (Or.inr (Or.inr (Or.inl ⟨w, ro, heq, rfl⟩))))
        · exact absurd h (by simp)
      · exact absurd h (by simp)
  | rwGrant w =>
      simp only [rwStep] at h
      split at h
      · rename_i hg
        cases h
        exact Or.inr (Or.inr (Or.inr (Or.inr (Or.inr (Or.inl ⟨w, hg.1, rfl, rfl⟩)))))
      · exact absurd h (by simp)
  | rwRelease w =>
      simp only [rwStep] at h
      split at h
      · rename_i hg
        cases h
        exact Or.inr (Or.inr (Or.inr (Or.inr (Or.inr (Or.inr (Or.inl ⟨w, hg, rfl⟩))))))
      · exact absurd h (by simp)
  | rwClear w =>
      simp only [rwStep] at h
      split at h
      · rename_i hg
        cases h
        exact Or.inr (Or.inr (Or.inr (Or.inr (Or.inr (Or.inr (Or.inr ⟨w, hg, rfl⟩))))))
      · exact absurd h (by simp)

/-- Appending a fresh pending writer keeps settled predecessors settled. -/
lemma wDoneL_append {l : List WPhase} {w : Nat} (h : wDoneL l w) :
    wDoneL (l ++ [WPhase.pending]) w := by
  have hlt : w < l.length := by rcases h with h | h <;> exact getElemQ_lt h
  unfold wDoneL at *
  rw [List.getElem?_append]
  simp only [hlt, if_true]
  exact h

/-- Updating position w0 from phase p0 to q keeps settled writers settled,
provided the transition keeps released writers released (the only source
transition from a released phase is the rwClear callback, wreleased to
cleared). -/
lemma wDoneL_set {l : List WPhase} {w0 w : Nat} {p0 q : WPhase}
    (hw : l[w0]? = some p0)
    (hdone : p0 = WPhase.wreleased ∨ p0 = WPhase.cleared →
             q = WPhase.wreleased ∨ q = WPhase.cleared)
    (h : wDoneL l w) : wDoneL (l.set w0 q) w := by
  by_cases hww : w0 = w
  · subst hww
    have hlt : w0 < l.length := getElemQ_lt hw
    have hp : p0 = WPhase.wreleased ∨ p0 = WPhase.cleared := by
      rcases h with h | h <;> rw [hw] at h <;>
        simp only [Option.some.injEq] at h <;> simp [h]
    unfold wDoneL
    rcases hdone hp with hq | hq <;> subst hq <;>
      simp [List.getElem?_set, hlt]
  · unfold wDoneL at *
    rw [List.getElem?_set]
    simp only [hww, if_false]
    exact h

/-- Every step of the scheduler keeps settled writer promises settled. -/
lemma wDone_mono {s s1 : MutexRW} {e : RWEvent} (h : rwStep s e = some s1)
    {w : Nat} (hd : wDoneL s.writers w) : wDoneL s1.writers w := by
  rcases rwStep_writers h with heq | heq | ⟨w0, hw, _, heq⟩ | ⟨w0, ro, hw, heq⟩ |
      ⟨w0, ro, hw, heq⟩ | ⟨w0, hw, _, heq⟩ | ⟨w0, hw, heq⟩ | ⟨w0, hw, heq⟩
  · exact heq ▸ hd
  · exact heq ▸ wDoneL_append hd
  · exact heq ▸ wDoneL_set hw (by intro hp; rcases hp with h | h <;> simp_all) hd
  · exact heq ▸ wDoneL_set hw (by intro hp; rcases hp with h | h <;> simp_all) hd
  · exact heq ▸ wDoneL_set hw (by intro hp; rcases hp with h | h <;> simp_all) hd
  · exact heq ▸ wDoneL_set hw (by intro hp; rcases hp with h | h <;> simp_all) hd
  · exact heq ▸ wDoneL_set hw (by intro hp; rcases hp with h | h <;> simp_all) hd
  · exact heq ▸ wDoneL_set hw (by intro _; exact Or.inr rfl) hd

/-- Appending a fresh pending writer preserves the writer-chain invariant. -/
lemma WInvW_append {l : List WPhase} (hinv : WInvW l) :
    WInvW (l ++ [WPhase.pending]) := by
  intro w p hp hpnp
  rw [List.getElem?_append] at hp
  split at hp
  · rename_i hlt
    rcases hinv w p hp hpnp with h0 | hd
    · exact Or.inl h0
    · exact Or.inr (wDoneL_append hd)
  · rename_i hge
    have : w - l.length < [WPhase.pending].length := getElemQ_lt hp
    have hw : w = l.length := by simp at this; omega
    subst hw
    simp at hp
    exact absurd hp.symm hpnp

/-- Advancing one writer a single phase preserves the writer-chain invariant,
under the same conditions as the transitions of the source: the new phase is
past pending; leaving pending requires the predecessor settled; released
writers stay released. -/
lemma WInvW_set {l : List WPhase} {w0 : Nat} {p0 q : WPhase}
    (hw : l[w0]? = some p0)
    (hq : q ≠ WPhase.pending)
    (hstart : p0 = WPhase.pending → (w0 = 0 ∨ wDoneL l (w0 - 1)))
    (hdone : p0 = WPhase.wreleased ∨ p0 = WPhase.cleared →
             q = WPhase.wreleased ∨ q = WPhase.cleared)
    (hinv : WInvW l) : WInvW (l.set w0 q) := by
  have hlt : w0 < l.length := getElemQ_lt hw
  intro w p hp hpnp
  rw [List.getElem?_set] at hp
  by_cases hww : w0 = w
  · subst hww
    have hpred : w0 = 0 ∨ wDoneL l (w0 - 1) := by
      by_cases hp0 : p0 = WPhase.pending
      · exact hstart hp0
      · exact hinv w0 p0 hw hp0
    rcases hpred with h0 | hd
    · exact Or.inl h0
    · exact Or.inr (wDoneL_set hw hdone hd)
  · simp only [hww, if_false] at hp
    rcases hinv w p hp hpnp with h0 | hd
    · exact Or.inl h0
    · exact Or.inr (wDoneL_set hw hdone hd)

/-- Every scheduler step preserves the writer-chain invariant. -/
lemma rwStep_winv {s s1 : MutexRW} {e : RWEvent} (hinv : WInvW s.writers)
    (h : rwStep s e = some s1) : WInvW s1.writers := by
  rcases rwStep_writers h with heq | heq | ⟨w0, hw, hprev, heq⟩ | ⟨w0, ro, hw, heq⟩ |
      ⟨w0, ro, hw, heq⟩ | ⟨w0, hw, _, heq⟩ | ⟨w0, hw, heq⟩ | ⟨w0, hw, heq⟩
  · exact heq ▸ hinv
  · exact heq ▸ WInvW_append hinv
  · exact heq ▸ WInvW_set hw (by simp) (fun _ => hprev)
      (by intro hp; rcases hp with h | h <;> simp_all) hinv
  · exact heq ▸ WInvW_set hw (by simp) (by intro hp; rw [hp] at hw; simp_all)
      (by intro hp; rcases hp with h | h <;> simp_all) hinv
  · exact heq ▸ WInvW_set hw (by simp) (by intro hp; rw [hp] at hw; simp_all)
      (by intro hp; rcases hp with h | h <;> simp_all) hinv
  · exact heq ▸ WInvW_set hw (by simp) (by intro hp; rw [hp] at hw; simp_all)
      (by intro hp; rcases hp with h | h <;> simp_all) hinv
  · exact heq ▸ WInvW_set hw (by simp) (by intro hp; rw [hp] at hw; simp_all)
      (by intro hp; rcases hp with h | h <;> simp_all) hinv
  · exact heq ▸ WInvW_set hw (by simp) (by intro hp; rw [hp] at hw; simp_all)
      (by intro _; exact Or.inr rfl) hinv

/-- A granted writer in an extended list was already granted before the
append (the appended entry is pending). -/
lemma wGrantedL_append_elim {l : List WPhase} {w : Nat}
    (h : wGrantedL (l ++ [WPhase.pending]) w) : wGrantedL l w := by
  unfold wGrantedL wDoneL at *
  rw [List.getElem?_append] at h
  split at h
  · exact h
  · rename_i hge
    have hlt : w - l.length < 1 := by
      rcases h with h | h | h <;> simpa using getElemQ_lt h
    have hz : w - l.length = 0 := by omega
    rw [hz] at h
    simp at h

/-- A granted writer in a list updated at w0 is either exactly the updated
position (which then holds a granted phase) or was already granted before. -/
lemma wGrantedL_set_elim {l : List WPhase} {w0 w : Nat} {q : WPhase}
    (h : wGrantedL (l.set w0 q) w) :
    (w = w0 ∧ (q = WPhase.active ∨ q = WPhase.wreleased ∨ q = WPhase.cleared)) ∨
      wGrantedL l w := by
  unfold wGrantedL wDoneL at *
  rw [List.getElem?_set] at h
  by_cases hww : w0 = w
  · subst hww
    simp only [if_true] at h
    by_cases hlt : w0 < l.length
    · simp only [hlt, if_true, Option.some.injEq] at h
      exact Or.inl ⟨rfl, by tauto⟩
    · simp [hlt] at h
  · simp only [hww, if_false] at h
    exact Or.inr h

/-- Backward analysis of granted writers: if writer w is granted after a
step, it was granted before unless the step is exactly its rwGrant. -/
lemma rwStep_granted_back {s s1 : MutexRW} {e : RWEvent}
    (h : rwStep s e = some s1) {w : Nat} (hg : wGrantedL s1.writers w) :
    wGrantedL s.writers w ∨ e = RWEvent.rwGrant w := by
  rcases rwStep_writers h with heq | heq | ⟨w0, hw, _, heq⟩ | ⟨w0, ro, hw, heq⟩ |
      ⟨w0, ro, hw, heq⟩ | ⟨w0, hw, hev, heq⟩ | ⟨w0, hw, heq⟩ | ⟨w0, hw, heq⟩
  · exact Or.inl (heq ▸ hg)
  · exact Or.inl (wGrantedL_append_elim (heq ▸ hg))
  · rcases wGrantedL_set_elim (heq ▸ hg) with ⟨_, hq⟩ | hold
    · rcases hq with hq | hq | hq <;> cases hq
    · exact Or.inl hold
  · rcases wGrantedL_set_elim (heq ▸ hg) with ⟨_, hq⟩ | hold
    · rcases hq with hq | hq | hq <;> cases hq
    · exact Or.inl hold
  · rcases wGrantedL_set_elim (heq ▸ hg) with ⟨_, hq⟩ | hold
    · rcases hq with hq | hq | hq <;> cases hq
    · exact Or.inl hold
  · rcases wGrantedL_set_elim (heq ▸ hg) with ⟨hwe, _⟩ | hold
    · exact Or.inr (hwe ▸ hev)
    · exact Or.inl hold
  · rcases wGrantedL_set_elim (heq ▸ hg) with ⟨hwe, _⟩ | hold
    · subst hwe
      exact Or.inl (Or.inl hw)
    · exact Or.inl hold
  · rcases wGrantedL_set_elim (heq ▸ hg) with ⟨hwe, _⟩ | hold
    · subst hwe
      exact Or.inl (Or.inr (Or.inl hw))
    · exact Or.inl hold

/-- Granted writers of a run all come from rwGrant events in the trace. -/
lemma rwFold_granted_mem :
    ∀ (es : List RWEvent) (s0 s1 : MutexRW),
      es.foldlM rwStep s0 = some s1 → ∀ w, wGrantedL s1.writers w →
        wGrantedL s0.writers w ∨ RWEvent.rwGrant w ∈ es := by
  intro es
  induction es with
  | nil =>
      intro s0 s1 h w hw
      simp only [List.foldlM_nil, pure, Option.some.injEq] at h
      exact Or.inl (h ▸ hw)
  | cons e es ih =>
      intro s0 s1 h w hw
      rw [List.foldlM_cons] at h
      rcases Option.bind_eq_some.mp h with ⟨m, hm, hrest⟩
      rcases ih m s1 hrest w hw with hmem | hev
      · rcases rwStep_granted_back hm hmem with hold | hev
        · exact Or.inl hold
        · exact Or.inr (by simp [hev])
      · exact Or.inr (List.mem_cons_of_mem _ hev)

/-- Writer-chain invariant holds along every run. -/
lemma rwFold_winv :
    ∀ (es : List RWEvent) (s0 s1 : MutexRW), WInvW s0.writers →
      es.foldlM rwStep s0 = some s1 → WInvW s1.writers := by
  intro es
  induction es with
  | nil =>
      intro s0 s1 h h2
      simp only [List.foldlM_nil, pure, Option.some.injEq] at h2
      exact h2 ▸ h
  | cons e es ih =>
      intro s0 s1 h h2
      rw [List.foldlM_cons] at h2
      rcases Option.bind_eq_some.mp h2 with ⟨m, hm, hrest⟩
      exact ih m s1 (rwStep_winv h hm) hrest

/-- In an invariant writer list, every writer below one that has passed its
chain await has already released: the chain drains strictly in order. -/
lemma winv_done_below {l : List WPhase} (hinv : WInvW l) :
    ∀ j p, l[j]? = some p → p ≠ WPhase.pending → ∀ i, i < j → wDoneL l i := by
  intro j
  induction j using Nat.strong_induction_on with
  | _ j ih =>
    intro p hp hpnp i hij
    rcases hinv j p hp hpnp with h0 | hd
    · omega
    · by_cases hc : i = j - 1
      · exact hc ▸ hd
      · rcases hd with hd | hd
        · exact ih (j - 1) (by omega) WPhase.wreleased hd (by simp) i (by omega)
        · exact ih (j - 1) (by omega) WPhase.cleared hd (by simp) i (by omega)

/-- FIFO ordering of MutexRW writers: whenever writer j's grant segment fires
at the end of a valid run, every writer i that called obtainRW earlier was
already granted within the preceding events. -/
lemma rw_writer_fifo :
    ∀ (es : List RWEvent) (j : Nat) (s : MutexRW),
      rwRun (es ++ [RWEvent.rwGrant j]) = some s →
      ∀ i, i < j → RWEvent.rwGrant i ∈ es := by
  intro es j s h i hij
  unfold rwRun at h
  rw [List.foldlM_append] at h
  rcases Option.bind_eq_some.mp h with ⟨m, hm, hlast⟩
  rw [List.foldlM_cons] at hlast
  rcases Option.bind_eq_some.mp hlast with ⟨s2, hstep, _⟩
  have hinv : WInvW m.writers :=
    rwFold_winv es MutexRW.init m (by intro w p hp _; simp [MutexRW.init] at hp) hm
  simp only [rwStep] at hstep
  split at hstep
  · rename_i hg
    have hdone : wDoneL m.writers i :=
      winv_done_below hinv j WPhase.draining hg.1 (by simp) i hij
    rcases rwFold_granted_mem es MutexRW.init m hm i (Or.inr hdone) with h0 | hev
    · unfold wGrantedL wDoneL at h0
      simp [MutexRW.init] at h0
    · exact hev
  · exact absurd hstep (by simp)

/-- Claim C3: FIFO grant order.  For the Mutex, if non-bypass acquirer i
called obtain before acquirer j (i below j in ticket order), then whenever
j's grant fires, i's grant already occurred earlier in the run.  For the
MutexRW, the same holds for writers in obtainRW call order. -/
theorem C3_fifo_grant_order :
    (∀ (es : List MutexEvent) (j : Nat) (s : Mutex),
        mutexRun (es ++ [MutexEvent.grant j]) = some s →
        ∀ i, 1 ≤ i → i < j → MutexEvent.grant i ∈ es) ∧
    (∀ (es : List RWEvent) (j : Nat) (s : MutexRW),
        rwRun (es ++ [RWEvent.rwGrant j]) = some s →
        ∀ i, i < j → RWEvent.rwGrant i ∈ es) :=
  ⟨mutex_fifo, rw_writer_fifo⟩

/-- Witness for C3: concrete two-acquirer runs of both locks in which the
second grant can only fire after the first, discharged by the theorem. -/
theorem C3_witness :
    MutexEvent.grant 1 ∈ [MutexEvent.acquire false, MutexEvent.acquire false,
        MutexEvent.grant 1, MutexEvent.release 1] ∧
    RWEvent.rwGrant 0 ∈ [RWEvent.obtainRW, RWEvent.obtainRW, RWEvent.rwStart 0,
        RWEvent.rwGrant 0, RWEvent.rwRelease 0, RWEvent.rwStart 1] :=
  ⟨C3_fifo_grant_order.1
      [MutexEvent.acquire false, MutexEvent.acquire false, MutexEvent.grant 1,
        MutexEvent.release 1] 2
      { m_lastPromise := 2, granted := [2, 1], released := [1] }
      (by decide) 1 (by decide) (by decide),
   C3_fifo_grant_order.2
      [RWEvent.obtainRW, RWEvent.obtainRW, RWEvent.rwStart 0, RWEvent.rwGrant 0,
        RWEvent.rwRelease 0, RWEvent.rwStart 1] 1
      { readers := [], writers := [WPhase.wreleased, WPhase.active],
        roAccessCnt := 0, rwAccess := true, m_lastRWPromise := some 1 }
      (by decide) 0 (by decide)⟩

/-! Latch.

Source (src/src/latch.ts):

  class Latch {
    private m_open: (() =. void) | null = null;
    private m_gate!: Promise.void.;
    public constructor() { this.close(); }
    public get gate(): Promise.void. {
      const gate = this.m_gate;
      return gate.then(() =. (this.m_gate === gate ? undefined : this.gate));
    }
    public open() {
      if (this.m_open === null) return;
      this.m_open();
      this.m_open = null;
    }
    public close() {
      const open = this.m_open;
      this.m_gate = new Promise(r =. (this.m_open = r));
      if (open !== null) { open(); }
    }
    private m_inUse = 0;
    public use(condition?: () =. boolean) {
      ++this.m_inUse;
      this.close();
      return { [Symbol.dispose]: () =. {
        !--this.m_inUse && (condition === undefined || condition()) && this.open();
      } };
    }
  }

Gate promises are numbered 1, 2, ... in creation order; gates counts how many
were ever created, m_gate is the id of the current one, settledG the ids that
have been settled, m_open the gate id the stored resolver settles (none for
the null resolver), m_inUse the usage counter (an Int, since the decrement in
dispose is unguarded).  Every public operation of the class is synchronous,
hence one atomic transition. -/

/-- State of one Latch instance: ghost count of gate promises ever created,
the class fields m_gate (current gate id), m_open (gate settled by the stored
resolver; none when the resolver is null, i.e. the latch is open) and
m_inUse, plus the ghost set of settled gate ids. -/
structure Latch where
  gates : Nat
  m_gate : Nat
  settledG : List Nat
  m_open : Option Nat
  m_inUse : Int
deriving DecidableEq

/-- Latch.close, straight from the source: capture the stored resolver,
install a fresh unsettled gate promise and its resolver, then settle the old
gate if the captured resolver was not null (all in one synchronous body). -/
def Latch.close (s : Latch) : Latch :=
  let g := s.gates + 1
  let s1 : Latch :=
    { s with gates := g, m_gate := g, m_open := some g }
  match s.m_open with
  | some old => { s1 with settledG := s1.settledG.insert old }
  | none => s1

/-- Latch.open, straight from the source: a no-op when the resolver is null,
otherwise invoke the resolver (settling its gate) and null it out. -/
def Latch.openL (s : Latch) : Latch :=
  match s.m_open with
  | none => s
  | some g => { s with settledG := s.settledG.insert g, m_open := none }

/-- The constructor: fields start as null resolver, zero usage count, and the
body runs close(), installing gate 1 closed. -/
def Latch.init : Latch :=
  Latch.close { gates := 0, m_gate := 0, settledG := [], m_open := none, m_inUse := 0 }

/-- Latch.use, straight from the source: increment m_inUse, then close. -/
def Latch.use (s : Latch) : Latch :=
  Latch.close { s with m_inUse := s.m_inUse + 1 }

/-- Disposal of a handle returned by Latch.use, straight from the source:
decrement m_inUse unconditionally; if the decremented count is zero and the
condition is absent or returns true (condTrue), call open().  No guard makes
disposal idempotent. -/
def Latch.dispose (s : Latch) (condTrue : Bool) : Latch :=
  let s1 : Latch := { s with m_inUse := s.m_inUse - 1 }
  if s1.m_inUse = 0 ∧ condTrue = true then Latch.openL s1 else s1

/-- The latch is closed: the stored resolver is not null and the current gate
promise is unsettled. -/
def Latch.closed (s : Latch) : Prop :=
  s.m_open ≠ none ∧ s.m_gate ∉ s.settledG

instance (s : Latch) : Decidable s.closed := by
  unfold Latch.closed; infer_instance

/-- What a task suspended on the gate getter sees when its captured gate
promise settles, straight from the getter's then-callback: if the stored
m_gate is still the captured one, the read resolves (the task unblocks);
otherwise it re-awaits the current gate (the recursive this.gate).  none
means the captured gate is still unsettled, so the callback has not run. -/
inductive WaiterView where
  | blocked : Nat → WaiterView
  | resolvedW : WaiterView
deriving DecidableEq

/-- Wake-up check of a gate-getter waiter that captured gate g. -/
def gateWake (s : Latch) (g : Nat) : Option WaiterView :=
  if g ∈ s.settledG then
    some (if s.m_gate = g then WaiterView.resolvedW else WaiterView.blocked s.m_gate)
  else none

/-- Public operations of a Latch (gate reads do not mutate the state and are
queried through gateWake; a dispose carries the value the optional condition
returns at that moment, true when the condition is absent). -/
inductive LatchOp where
  | openO : LatchOp
  | closeO : LatchOp
  | useO : LatchOp
  | disposeO : Bool → LatchOp
deriving DecidableEq

/-- One public operation applied to a Latch (all are total and atomic). -/
def latchStep (s : Latch) : LatchOp → Latch
  | LatchOp.openO => Latch.openL s
  | LatchOp.closeO => Latch.close s
  | LatchOp.useO => Latch.use s
  | LatchOp.disposeO c => Latch.dispose s c

/-- A Latch reached from construction by a sequence of public operations. -/
def latchRun (ops : List LatchOp) : Latch :=
  ops.foldl latchStep Latch.init

/-- Structural invariant of every reachable Latch: the current gate is the
newest one, all settled gates were created, the resolver (when present)
belongs to the current gate, which is then unsettled, and a null resolver
means the current gate is settled. -/
def LatchInv (s : Latch) : Prop :=
  s.m_gate = s.gates ∧ 1 ≤ s.gates ∧ (∀ g ∈ s.settledG, g ≤ s.gates) ∧
  (∀ g, s.m_open = some g → g = s.m_gate ∧ g ∉ s.settledG) ∧
  (s.m_open = none → s.m_gate ∈ s.settledG)

lemma latch_close_eq_none {s : Latch} (h : s.m_open = none) :
    Latch.close s =
      { gates := s.gates + 1, m_gate := s.gates + 1, settledG := s.settledG,
        m_open := some (s.gates + 1), m_inUse := s.m_inUse } := by
  simp [Latch.close, h]

lemma latch_close_eq_some {s : Latch} {g : Nat} (h : s.m_open = some g) :
    Latch.close s =
      { gates := s.gates + 1, m_gate := s.gates + 1,
        settledG := s.settledG.insert g,
        m_open := some (s.gates + 1), m_inUse := s.m_inUse } := by
  simp [Latch.close, h]

lemma latch_openL_eq_some {s : Latch} {g : Nat} (h : s.m_open = some g) :
    Latch.openL s =
      { gates := s.gates, m_gate := s.m_gate,
        settledG := s.settledG.insert g, m_open := none,
        m_inUse := s.m_inUse } := by
  simp [Latch.openL, h]

lemma latchInv_close {s : Latch} (h : LatchInv s) : LatchInv (Latch.close s) := by
  obtain ⟨h1, h2, h3, h4, h5⟩ := h
  cases ho : s.m_open with
  | none =>
      rw [latch_close_eq_none ho]
      refine ⟨rfl, by dsimp only; omega, ?_, ?_, ?_⟩
      · intro g hg
        dsimp only at hg ⊢
        exact (h3 g hg).trans (by omega)
      · intro g hg
        simp only [Option.some.injEq] at hg
        subst hg
        refine ⟨rfl, fun hc => ?_⟩
        dsimp only at hc
        have := h3 _ hc
        omega
      · intro hc
        exact absurd hc (by simp)
  | some old =>
      rw [latch_close_eq_some ho]
      have hold := h4 old ho
      refine ⟨rfl, by dsimp only; omega, ?_, ?_, ?_⟩
      · intro g hg
        dsimp only at hg ⊢
        rcases List.mem_insert_iff.mp hg with hg | hg
        · subst hg
          omega
        · exact (h3 g hg).trans (by omega)
      · intro g hg
        simp only [Option.some.injEq] at hg
        subst hg
        refine ⟨rfl, fun hc => ?_⟩
        dsimp only at hc
        rcases List.mem_insert_iff.mp hc with hc | hc
        · omega
        · have := h3 _ hc
          omega
      · intro hc
        exact absurd hc (by simp)

lemma latchInv_openL {s : Latch} (h : LatchInv s) : LatchInv (Latch.openL s) := by
  obtain ⟨h1, h2, h3, h4, h5⟩ := h
  cases ho : s.m_open with
  | none =>
      have : Latch.openL s = s := by simp [Latch.openL, ho]
      rw [this]
      exact ⟨h1, h2, h3, h4, h5⟩
  | some g =>
      rw [latch_openL_eq_some ho]
      have hg := h4 g ho
      refine ⟨h1, h2, ?_, ?_, ?_⟩
      · intro x hx
        dsimp only at hx ⊢
        rcases List.mem_insert_iff.mp hx with hx | hx
        · subst hx
          omega
        · exact h3 x hx
      · intro x hx
        exact absurd hx (by simp)
      · intro _
        rw [hg.1]
        exact List.mem_insert_self _ _

lemma latchInv_init : LatchInv Latch.init := by
  refine ⟨rfl, by decide, ?_, ?_, ?_⟩
  · intro g hg
    simp [Latch.init, Latch.close] at hg
  · intro g hg
    simp only [Latch.init, Latch.close, Option.some.injEq] at hg ⊢
    subst hg
    exact ⟨rfl, by simp⟩
  · intro hc
    simp [Latch.init, Latch.close] at hc

lemma latchStep_inv {s : Latch} {op : LatchOp} (h : LatchInv s) :
    LatchInv (latchStep s op) := by
  cases op with
  | openO => exact latchInv_openL h
  | closeO => exact latchInv_close h
  | useO => exact latchInv_close h
  | disposeO c =>
      show LatchInv (Latch.dispose s c)
      simp only [Latch.dispose]
      split
      · exact latchInv_openL h
      · exact h

lemma latchRun_inv (ops : List LatchOp) : LatchInv (latchRun ops) := by
  suffices hgen : ∀ (l : List LatchOp) (s0 : Latch), LatchInv s0 →
      LatchInv (l.foldl latchStep s0) by
    exact hgen ops Latch.init latchInv_init
  intro l
  induction l with
  | nil => intro s0 h; exact h
  | cons op l ih =>
      intro s0 h
      exact ih (latchStep s0 op) (latchStep_inv h)

/-- Closing always leaves the latch closed: the fresh gate is unsettled. -/
lemma latch_close_closed {s : Latch} (h : LatchInv s) :
    Latch.closed (Latch.close s) := by
  obtain ⟨_, _, _, h4, _⟩ := latchInv_close h
  have hopen : (Latch.close s).m_open = some (s.gates + 1) := by
    cases ho : s.m_open
    · rw [latch_close_eq_none ho]
    · rw [latch_close_eq_some ho]
  have hg := h4 _ hopen
  exact ⟨by simp [hopen], hg.1 ▸ hg.2⟩

/-- Disposal of a use() handle always decrements m_inUse by one, whether or
not it ends up opening the latch. -/
lemma latch_openL_inUse (s : Latch) : (Latch.openL s).m_inUse = s.m_inUse := by
  unfold Latch.openL
  cases ho : s.m_open <;> simp [ho]

/-- Disposal of a use() handle always decrements m_inUse by one, whether or
not it ends up opening the latch. -/
lemma latch_dispose_inUse (s : Latch) (c : Bool) :
    (Latch.dispose s c).m_inUse = s.m_inUse - 1 := by
  simp only [Latch.dispose]
  split
  · rw [latch_openL_inUse]
  · rfl

/-- Claim C7: re-closing a closed latch never strands waiters on the old
gate.  Whenever close() runs while the stored resolver is non-null (the
previous gate g is still unsettled), the old gate ends up settled and a new
unsettled gate is installed; a waiter that captured g is woken by the settling
and its re-check sends it to the new, still-closed gate rather than leaving
it parked on a promise that can never settle. -/
theorem C7_reclose_settles_old_gate :
    ∀ (ops : List LatchOp) (g : Nat), (latchRun ops).m_open = some g →
      g ∈ (Latch.close (latchRun ops)).settledG ∧
      Latch.closed (Latch.close (latchRun ops)) ∧
      (Latch.close (latchRun ops)).m_gate ≠ g ∧
      gateWake (Latch.close (latchRun ops)) g =
        some (WaiterView.blocked (Latch.close (latchRun ops)).m_gate) := by
  intro ops g hopen
  have hinv := latchRun_inv ops
  have hg := hinv.2.2.2.1 g hopen
  have hclose := latch_close_eq_some hopen
  have hmem : g ∈ (Latch.close (latchRun ops)).settledG := by
    rw [hclose]
    exact List.mem_insert_self _ _
  have hgate : (Latch.close (latchRun ops)).m_gate = (latchRun ops).gates + 1 := by
    rw [hclose]
  have hne : (Latch.close (latchRun ops)).m_gate ≠ g := by
    rw [hgate]
    have : g = (latchRun ops).m_gate := hg.1
    rw [this, hinv.1]
    omega
  refine ⟨hmem, latch_close_closed hinv, hne, ?_⟩
  unfold gateWake
  rw [if_pos hmem, if_neg hne]

/-- Claim C4: an open-then-close flip while a task is suspended on the gate
leaves that task still blocked.  For any reachable latch that is closed (the
resolver holds gate g, the gate a suspended reader captured), before the flip
the waiter cannot wake (g unsettled); after open() immediately followed by
close(), the waiter's wake-up re-check observes that m_gate has changed and
re-awaits the newly installed gate, which is unsettled, so the task does not
resolve. -/
theorem C4_flip_keeps_waiter_blocked :
    ∀ (ops : List LatchOp) (g : Nat), (latchRun ops).m_open = some g →
      gateWake (latchRun ops) g = none ∧
      gateWake (latchStep (latchStep (latchRun ops) LatchOp.openO) LatchOp.closeO) g =
        some (WaiterView.blocked
          (latchStep (latchStep (latchRun ops) LatchOp.openO) LatchOp.closeO).m_gate) ∧
      Latch.closed (latchStep (latchStep (latchRun ops) LatchOp.openO) LatchOp.closeO) := by
  intro ops g hopen
  have hinv := latchRun_inv ops
  have hg := hinv.2.2.2.1 g hopen
  have hblocked : gateWake (latchRun ops) g = none := by
    unfold gateWake
    rw [if_neg hg.2]
  have hinv1 : LatchInv (Latch.openL (latchRun ops)) := latchInv_openL hinv
  have hoeq := latch_openL_eq_some hopen
  have hopen1 : (Latch.openL (latchRun ops)).m_open = none := by rw [hoeq]
  have hceq := latch_close_eq_none hopen1
  have hmem : g ∈ (Latch.close (Latch.openL (latchRun ops))).settledG := by
    rw [hceq, hoeq]
    exact List.mem_insert_self _ _
  have hne : (Latch.close (Latch.openL (latchRun ops))).m_gate ≠ g := by
    rw [hceq, hoeq]
    have : g = (latchRun ops).m_gate := hg.1
    dsimp only
    rw [this, hinv.1]
    omega
  refine ⟨hblocked, ?_, ?_⟩
  · show gateWake (Latch.close (Latch.openL (latchRun ops))) g =
        some (WaiterView.blocked (Latch.close (Latch.openL (latchRun ops))).m_gate)
    unfold gateWake
    rw [if_pos hmem, if_neg hne]
  · show Latch.closed (Latch.close (Latch.openL (latchRun ops)))
    exact latch_close_closed hinv1

/-- Witness for C4: the freshly constructed latch is closed with resolver on
gate 1; the flip theorem applies to it. -/
theorem C4_witness :
    gateWake (latchRun []) 1 = none ∧
    gateWake (latchStep (latchStep (latchRun []) LatchOp.openO) LatchOp.closeO) 1 =
      some (WaiterView.blocked
        (latchStep (latchStep (latchRun []) LatchOp.openO) LatchOp.closeO).m_gate) ∧
    Latch.closed (latchStep (latchStep (latchRun []) LatchOp.openO) LatchOp.closeO) :=
  C4_flip_keeps_waiter_blocked [] 1 (by decide)

/-- Witness for C7: the freshly constructed latch re-closed; the re-close
theorem applies to it. -/
theorem C7_witness :
    1 ∈ (Latch.close (latchRun [])).settledG ∧
    Latch.closed (Latch.close (latchRun [])) ∧
    (Latch.close (latchRun [])).m_gate ≠ 1 ∧
    gateWake (Latch.close (latchRun [])) 1 =
      some (WaiterView.blocked (Latch.close (latchRun [])).m_gate) :=
  C7_reclose_settles_old_gate [] 1 (by decide)

/-- Claim C6 counterexample: the claim quantifies over every sequence of
public operations including open(); after use() then open() the usage count
is 1 (positive) while the latch is open, because open() does not consult
m_inUse.  So the invariant does not survive direct open() calls. -/
theorem C6_counterexample :
    0 < (latchRun [LatchOp.useO, LatchOp.openO]).m_inUse ∧
    ¬ Latch.closed (latchRun [LatchOp.useO, LatchOp.openO]) := by
  constructor
  · decide
  · decide

/-- Claim C6 (amended): over every sequence of the public operations other
than direct open() calls (gate reads do not mutate state; close, use and
handle disposals are allowed), a positive usage count implies the latch is
closed. -/
theorem C6_holds_imply_closed :
    ∀ (ops : List LatchOp), LatchOp.openO ∉ ops →
      0 < (latchRun ops).m_inUse → Latch.closed (latchRun ops) := by
  intro ops
  induction ops using List.reverseRecOn with
  | nil =>
      intro _ hpos
      exact absurd hpos (by decide)
  | append_singleton ops op ih =>
      intro hnotin hpos
      have hnotin1 : LatchOp.openO ∉ ops := fun hc => hnotin (by simp [hc])
      have hs : latchRun (ops ++ [op]) = latchStep (latchRun ops) op := by
        simp [latchRun, List.foldl_append]
      rw [hs] at hpos ⊢
      have hinv := latchRun_inv ops
      cases op with
      | openO => exact absurd (by simp) hnotin
      | closeO => exact latch_close_closed hinv
      | useO =>
          exact @latch_close_closed
            ({ latchRun ops with m_inUse := (latchRun ops).m_inUse + 1 }) hinv
      | disposeO c =>
          have hiu : (latchStep (latchRun ops) (LatchOp.disposeO c)).m_inUse =
              (latchRun ops).m_inUse - 1 := latch_dispose_inUse _ _
          rw [hiu] at hpos
          have hclosed := ih hnotin1 (by omega)
          show Latch.closed (Latch.dispose (latchRun ops) c)
          simp only [Latch.dispose]
          split
          · rename_i hcond
            have : (latchRun ops).m_inUse - 1 = 0 := hcond.1
            omega
          · exact hclosed

/-- Witness for C6 (amended): a single use() leaves count 1 and the latch
closed; the amended theorem applies to it. -/
theorem C6_witness :
    Latch.closed (latchRun [LatchOp.useO]) :=
  C6_holds_imply_closed [LatchOp.useO] (by decide) (by decide)

/-- Claim C10: disposal of a use() handle is not idempotent.  Every
invocation of the dispose decrements m_inUse, so with two outstanding holds,
disposing the first handle twice drives the count to zero and opens the latch
even though the second hold was never released; and disposing an already
balanced latch drives the count negative. -/
theorem C10_dispose_not_idempotent :
    (∀ (s : Latch) (c : Bool), (Latch.dispose s c).m_inUse = s.m_inUse - 1) ∧
    (latchRun [LatchOp.useO, LatchOp.useO, LatchOp.disposeO true,
        LatchOp.disposeO true]).m_inUse = 0 ∧
    ¬ Latch.closed (latchRun [LatchOp.useO, LatchOp.useO, LatchOp.disposeO true,
        LatchOp.disposeO true]) ∧
    (latchRun [LatchOp.useO, LatchOp.disposeO true, LatchOp.disposeO true,
        LatchOp.disposeO true]).m_inUse = -2 := by
  refine ⟨latch_dispose_inUse, by decide, by decide, by decide⟩

/-! PromiseBarrier.

Source (src/src/utils.ts):

  class PromiseBarrier {
    private readonly m_activePromises = new Set.Promise.unknown..();
    public add(promise: Promise.unknown.) {
      this.m_activePromises.add(promise);
      void promise
        .catch(() =. { return; })
        .finally(() =. this.m_activePromises.delete(promise));
    }
    private m_cachedFree: null | Promise.void. = null;
    public get free(): Promise.void. {
      if (this.m_cachedFree !== null) return this.m_cachedFree;
      if (this.m_activePromises.size === 0) return Promise.resolve();
      return (this.m_cachedFree = Promise.allSettled(this.m_activePromises).then(
        () =. ((this.m_cachedFree = null), this.free),
      ));
    }
  }

Tracked tasks are numbered 0, 1, ... in add order; each is pending, settled
(with its success flag) or removed (the finally callback deleted it from the
set).  The set m_activePromises is the derived list of added, not yet removed
ids.  The futures produced by free reads are numbered in creation order; each
records the snapshot of tracked ids its Promise.allSettled waits on and its
resolution: still unresolved, resolved by adopting the already settled
Promise.resolve() of an empty re-read (done), or resolved by adopting the
next future of the recursive this.free re-read (chainedTo).  The
then-callback of a cached future runs as its own microtask once the
allSettled of its snapshot has settled, and is one scheduler event. -/

/-- Lifecycle of one tracked task: pending, settled with outcome ok (true for
fulfilled, false for rejected), or settled and already removed from the set
by the finally callback. -/
inductive TaskSt where
  | pendingT : TaskSt
  | settledT : Bool → TaskSt
  | removedT : Bool → TaskSt
deriving DecidableEq

/-- Resolution of one future produced by the free getter. -/
inductive FRes where
  | unresolved : FRes
  | done : FRes
  | chainedTo : Nat → FRes
deriving DecidableEq

/-- One future produced by a cache-filling free read: the snapshot its
allSettled waits on, and its resolution. -/
structure FFut where
  snap : List Nat
  res : FRes
deriving DecidableEq

/-- State of one PromiseBarrier instance: the lifecycle of every task ever
added (list position = add order), every future ever produced by free reads,
and the m_cachedFree field as the index of the cached future (none for
null). -/
structure PromiseBarrier where
  tasks : List TaskSt
  futs : List FFut
  m_cachedFree : Option Nat
deriving DecidableEq

/-- A fresh PromiseBarrier. -/
def PromiseBarrier.init : PromiseBarrier :=
  { tasks := [], futs := [], m_cachedFree := none }

/-- Task i has settled in the JavaScript sense (fulfilled or rejected),
whether or not the removal callback has already run. -/
def jsSettledB (s : PromiseBarrier) (i : Nat) : Bool :=
  match s.tasks[i]? with
  | some TaskSt.pendingT => false
  | some _ => true
  | none => false

/-- The current contents of m_activePromises: every task added and not yet
deleted by its finally callback (settled tasks stay in the set until that
callback runs). -/
def trackedIds (s : PromiseBarrier) : List Nat :=
  (List.range s.tasks.length).filter fun i =>
    match s.tasks[i]? with
    | some TaskSt.pendingT => true
    | some (TaskSt.settledT _) => true
    | _ => false

/-- Value of a free read: an already settled Promise.resolve(), or future k. -/
inductive FreeVal where
  | settledNow : FreeVal
  | fut : Nat → FreeVal
deriving DecidableEq

/-- The free getter, straight from the source: return the cached future if
non-null; return an already settled promise if the set is empty; otherwise
create, cache and return a future whose allSettled waits on the current
snapshot of the set.  Returns the possibly-updated state and the value. -/
def freeGet (s : PromiseBarrier) : PromiseBarrier × FreeVal :=
  match s.m_cachedFree with
  | some k => (s, FreeVal.fut k)
  | none =>
      if trackedIds s = [] then (s, FreeVal.settledNow)
      else
        ({ s with
            futs := s.futs ++ [{ snap := trackedIds s, res := FRes.unresolved }],
            m_cachedFree := some s.futs.length },
          FreeVal.fut s.futs.length)

/-- The then-callback of future k, straight from the source: once the
allSettled of k's snapshot has settled (every snapshot task settled) and k is
still unresolved, null the cache and resolve k with the result of re-reading
free on the spot: adopting the settled promise of an empty re-read settles k
(done); otherwise k adopts the newly created future of the re-read
(chainedTo).  none when the callback cannot fire yet. -/
def contFire (s : PromiseBarrier) (k : Nat) : Option PromiseBarrier :=
  match s.futs[k]? with
  | some f =>
      if f.res = FRes.unresolved ∧ (∀ i ∈ f.snap, jsSettledB s i = true) then
        let s1 : PromiseBarrier := { s with m_cachedFree := none }
        let r := freeGet s1
        match r.2 with
        | FreeVal.settledNow =>
            some { r.1 with futs := r.1.futs.set k { snap := f.snap, res := FRes.done } }
        | FreeVal.fut m =>
            some { r.1 with futs := r.1.futs.set k { snap := f.snap, res := FRes.chainedTo m } }
      else none
  | none => none

/-- Scheduler events of a PromiseBarrier: a call of add (the new task starts
pending), the settlement of task i with outcome ok, the finally callback
removing settled task i from the set, a read of the free property (its value
is observed through freeGet), and the then-callback of future k. -/
inductive BarEvent where
  | addT : BarEvent
  | settleT : Nat → Bool → BarEvent
  | removeT : Nat → BarEvent
  | freeReadE : BarEvent
  | contE : Nat → BarEvent
deriving DecidableEq

/-- One scheduler step of a PromiseBarrier. -/
def barStep (s : PromiseBarrier) : BarEvent → Option PromiseBarrier
  | BarEvent.addT => some { s with tasks := s.tasks ++ [TaskSt.pendingT] }
  | BarEvent.settleT i ok =>
      if s.tasks[i]? = some TaskSt.pendingT then
        some { s with tasks := s.tasks.set i (TaskSt.settledT ok) }
      else none
  | BarEvent.removeT i =>
      match s.tasks[i]? with
      | some (TaskSt.settledT ok) =>
          some { s with tasks := s.tasks.set i (TaskSt.removedT ok) }
      | _ => none
  | BarEvent.freeReadE => some (freeGet s).1
  | BarEvent.contE k => contFire s k

/-- Execution of a whole event sequence from a fresh PromiseBarrier. -/
def barRun (es : List BarEvent) : Option PromiseBarrier :=
  es.foldlM barStep PromiseBarrier.init

/-- The future at index k is settled: resolved done, or resolved by adopting
a settled future (JavaScript promise adoption: a promise resolved with a
promise settles exactly when the adopted one does). -/
inductive FSet (futs : List FFut) : Nat → Prop
  | done (k : Nat) (sn : List Nat) :
      futs[k]? = some { snap := sn, res := FRes.done } → FSet futs k
  | chain (k : Nat) (sn : List Nat) (j : Nat) :
      futs[k]? = some { snap := sn, res := FRes.chainedTo j } →
      FSet futs j → FSet futs k

/-- A future whose entry is unresolved is not settled. -/
lemma FSet_not_unresolved {futs : List FFut} {k : Nat} {sn : List Nat}
    (h : futs[k]? = some { snap := sn, res := FRes.unresolved }) :
    ¬ FSet futs k := by
  intro hf
  cases hf with
  | done k sn2 h2 => rw [h] at h2; simp at h2
  | chain k sn2 j h2 hj => rw [h] at h2; simp at h2

lemma getElemQ_append_left {α : Type} {l1 l2 : List α} {k : Nat}
    (h : k < l1.length) : (l1 ++ l2)[k]? = l1[k]? := by
  rw [List.getElem?_append]
  simp [h]

/-- A future list needs an entry for a settled future. -/
lemma FSet_none {futs : List FFut} {k : Nat} (h : futs[k]? = none) :
    ¬ FSet futs k := by
  intro hf
  cases hf with
  | done k sn h2 => rw [h] at h2; simp at h2
  | chain k sn j h2 hj => rw [h] at h2; simp at h2

/-- Case analysis of the free getter, one disjunct per source branch. -/
lemma freeGet_cases (s : PromiseBarrier) :
    (∃ k, s.m_cachedFree = some k ∧ (freeGet s).1 = s ∧ (freeGet s).2 = FreeVal.fut k) ∨
    (s.m_cachedFree = none ∧ trackedIds s = [] ∧ (freeGet s).1 = s ∧
      (freeGet s).2 = FreeVal.settledNow) ∨
    (s.m_cachedFree = none ∧ trackedIds s ≠ [] ∧
      (freeGet s).1 = { s with
          futs := s.futs ++ [{ snap := trackedIds s, res := FRes.unresolved }],
          m_cachedFree := some s.futs.length } ∧
      (freeGet s).2 = FreeVal.fut s.futs.length) := by
  cases hc : s.m_cachedFree with
  | some k =>
      left
      refine ⟨k, rfl, ?_, ?_⟩ <;> simp [freeGet, hc]
  | none =>
      by_cases ht : trackedIds s = []
      · right; left
        refine ⟨rfl, ht, ?_, ?_⟩ <;> simp [freeGet, hc, ht]
      · right; right
        refine ⟨rfl, ht, ?_, ?_⟩ <;> simp [freeGet, hc, ht]

/-- Case analysis of a fired then-callback of future k: the future existed
unresolved with a fully settled snapshot, and it either resolves done (empty
re-read: the set was empty) or chains to the fresh future of a non-empty
re-read. -/
lemma contFire_cases {s s1 : PromiseBarrier} {k : Nat}
    (h : contFire s k = some s1) :
    ∃ sn, s.futs[k]? = some { snap := sn, res := FRes.unresolved } ∧
      (∀ i ∈ sn, jsSettledB s i = true) ∧
      ((trackedIds s = [] ∧
          s1 = { s with
                 m_cachedFree := none,
                 futs := s.futs.set k { snap := sn, res := FRes.done } }) ∨
       (trackedIds s ≠ [] ∧
          s1 = { s with
                 m_cachedFree := some s.futs.length,
                 futs := (s.futs ++
                     [({ snap := trackedIds s, res := FRes.unresolved } : FFut)]).set k
                     { snap := sn, res := FRes.chainedTo s.futs.length } })) := by
  unfold contFire at h
  cases hfq : s.futs[k]? with
  | none => rw [hfq] at h; exact absurd h (by simp)
  | some f =>
      rw [hfq] at h
      dsimp only at h
      split at h
      · rename_i hg
        have hfeq : f = { snap := f.snap, res := FRes.unresolved } := by
          cases f with
          | mk a b =>
              simp only [FFut.mk.injEq, true_and]
              exact hg.1
        refine ⟨f.snap, congrArg some hfeq, hg.2, ?_⟩
        by_cases ht : trackedIds s = []
        · left
          refine ⟨ht, ?_⟩
          have hfree : freeGet { s with m_cachedFree := none } =
              ({ s with m_cachedFree := none }, FreeVal.settledNow) := by
            have htr : trackedIds { s with m_cachedFree := none } = trackedIds s := rfl
            simp [freeGet, htr, ht]
          rw [hfree] at h
          dsimp only at h
          simp only [Option.some.injEq] at h
          exact h.symm
        · right
          refine ⟨ht, ?_⟩
          have hfree : freeGet { s with m_cachedFree := none } =
              ({ s with
                 m_cachedFree := some s.futs.length,
                 futs := s.futs ++
                     [{ snap := trackedIds s, res := FRes.unresolved }] },
                FreeVal.fut s.futs.length) := by
            have htr : trackedIds { s with m_cachedFree := none } = trackedIds s := rfl
            simp [freeGet, htr, ht]
          rw [hfree] at h
          dsimp only at h
          simp only [Option.some.injEq] at h
          exact h.symm
      · exact absurd h (by simp)

/-- Settled futures stay settled when fresh futures are appended. -/
lemma FSet_mono_append {futs : List FFut} {x : FFut} :
    ∀ k, FSet futs k → FSet (futs ++ [x]) k := by
  intro k hf
  induction hf with
  | done k sn h =>
      exact FSet.done k sn (by rw [getElemQ_append_left (getElemQ_lt h)]; exact h)
  | chain k sn j h hj ih =>
      exact FSet.chain k sn j
        (by rw [getElemQ_append_left (getElemQ_lt h)]; exact h) ih

/-- Settled futures stay settled when an unresolved entry is overwritten: no
settledness derivation passes through an unresolved entry. -/
lemma FSet_mono_set_unres {futs : List FFut} {k2 : Nat} {sn2 : List Nat}
    {q : FFut} (hk2 : futs[k2]? = some { snap := sn2, res := FRes.unresolved }) :
    ∀ k, FSet futs k → FSet (futs.set k2 q) k := by
  intro k hf
  induction hf with
  | done k sn h =>
      have hne : k2 ≠ k := by
        intro he
        rw [he, h] at hk2
        simp at hk2
      exact FSet.done k sn (by rw [List.getElem?_set, if_neg hne]; exact h)
  | chain k sn j h hj ih =>
      have hne : k2 ≠ k := by
        intro he
        rw [he, h] at hk2
        simp at hk2
      exact FSet.chain k sn j (by rw [List.getElem?_set, if_neg hne]; exact h) ih

/-- Settled futures stay settled across every scheduler step. -/
lemma barStep_FSet_mono {s s1 : PromiseBarrier} {e : BarEvent} {k : Nat}
    (h : barStep s e = some s1) (hf : FSet s.futs k) : FSet s1.futs k := by
  cases e with
  | addT =>
      simp only [barStep, Option.some.injEq] at h
      cases h
      exact hf
  | settleT i ok =>
      simp only [barStep] at h
      split at h
      · cases h; exact hf
      · exact absurd h (by simp)
  | removeT i =>
      simp only [barStep] at h
      split at h
      · cases h; exact hf
      · exact absurd h (by simp)
  | freeReadE =>
      simp only [barStep, Option.some.injEq] at h
      rcases freeGet_cases s with ⟨k2, hc, h1, h2⟩ | ⟨hc, ht, h1, h2⟩ | ⟨hc, ht, h1, h2⟩
      · rw [h1] at h
        cases h
        exact hf
      · rw [h1] at h
        cases h
        exact hf
      · rw [h1] at h
        cases h
        exact FSet_mono_append k hf
  | contE k2 =>
      obtain ⟨sn, hk2, hsnset, hcase⟩ := contFire_cases h
      rcases hcase with ⟨ht, hs1⟩ | ⟨ht, hs1⟩
      · rw [hs1]
        exact FSet_mono_set_unres hk2 k hf
      · rw [hs1]
        have hk2b : (s.futs ++ [{ snap := trackedIds s, res := FRes.unresolved }])[k2]? =
            some { snap := sn, res := FRes.unresolved } := by
          rw [getElemQ_append_left (getElemQ_lt hk2)]
          exact hk2
        exact FSet_mono_set_unres hk2b k (FSet_mono_append k hf)

/-- Lookup in a list with one element appended. -/
lemma append_lookup {α : Type} {l : List α} {u : α} (k : Nat) :
    (l ++ [u])[k]? = if k = l.length then some u else l[k]? := by
  rw [List.getElem?_append]
  by_cases hk : k < l.length
  · have hne : k ≠ l.length := by omega
    simp [hk, hne]
  · by_cases he : k = l.length
    · subst he
      simp
    · have h2 : l[k]? = none := List.getElem?_eq_none (by omega)
      have h3 : ([u])[k - l.length]? = none := List.getElem?_eq_none (by simp; omega)
      simp [hk, he, h2, h3]

/-- Lookup in a list with one element appended and another overwritten. -/
lemma append_set_lookup {α : Type} {l : List α} {k2 : Nat} {u v : α}
    (hlt : k2 < l.length) (k : Nat) :
    ((l ++ [u]).set k2 v)[k]? =
      if k2 = k then some v else if k = l.length then some u else l[k]? := by
  rw [List.getElem?_set]
  by_cases he : k2 = k
  · subst he
    have h3 : k2 < l.length + 1 := by omega
    simp [h3]
  · rw [if_neg he, if_neg he]
    exact append_lookup k

/-- A settled future of a list extended with a fresh unresolved future was
already settled before the extension. -/
lemma FSet_append_unres_elim {futs : List FFut} {sn2 : List Nat} :
    ∀ k, FSet (futs ++ [({ snap := sn2, res := FRes.unresolved } : FFut)]) k →
      FSet futs k := by
  intro k hf
  induction hf with
  | done k sn h =>
      rw [append_lookup] at h
      split at h
      · simp at h
      · exact FSet.done k sn h
  | chain k sn j h hj ih =>
      rw [append_lookup] at h
      split at h
      · simp at h
      · exact FSet.chain k sn j h ih

/-- A settled future of a list in which an unresolved future k2 was chained
to a freshly appended unresolved future was already settled before: the new
link cannot complete any settledness derivation. -/
lemma FSet_set_chain_elim {futs : List FFut} {k2 : Nat} {sn sn2 : List Nat}
    (hk2 : futs[k2]? = some { snap := sn, res := FRes.unresolved }) :
    ∀ k, FSet ((futs ++ [({ snap := sn2, res := FRes.unresolved } : FFut)]).set k2
        { snap := sn, res := FRes.chainedTo futs.length }) k →
      FSet futs k := by
  have hlt : k2 < futs.length := getElemQ_lt hk2
  intro k hf
  induction hf with
  | done k sn3 h =>
      rw [append_set_lookup hlt] at h
      split at h
      · simp at h
      · split at h
        · simp at h
        · exact FSet.done k sn3 h
  | chain k sn3 j h hj ih =>
      rw [append_set_lookup hlt] at h
      split at h
      · rename_i he
        simp only [Option.some.injEq, FFut.mk.injEq, FRes.chainedTo.injEq] at h
        exfalso
        have hu : ((futs ++ [({ snap := sn2, res := FRes.unresolved } : FFut)]).set k2
            { snap := sn, res := FRes.chainedTo futs.length })[futs.length]? =
            some { snap := sn2, res := FRes.unresolved } := by
          rw [append_set_lookup hlt]
          rw [if_neg (by omega), if_pos rfl]
        rw [← h.2] at hj
        exact FSet_not_unresolved hu hj
      · split at h
        · simp at h
        · exact FSet.chain k sn3 j h ih

/-- Backward analysis of future settledness: a step can only newly settle a
future when it is a then-callback that observed an empty tracked set (the
source's empty re-read). -/
lemma barStep_FSet_back {s s1 : PromiseBarrier} {e : BarEvent} {k : Nat}
    (h : barStep s e = some s1) (hf : FSet s1.futs k) :
    FSet s.futs k ∨ trackedIds s = [] := by
  cases e with
  | addT =>
      simp only [barStep, Option.some.injEq] at h
      cases h
      exact Or.inl hf
  | settleT i ok =>
      simp only [barStep] at h
      split at h
      · cases h; exact Or.inl hf
      · exact absurd h (by simp)
  | removeT i =>
      simp only [barStep] at h
      split at h
      · cases h; exact Or.inl hf
      · exact absurd h (by simp)
  | freeReadE =>
      simp only [barStep, Option.some.injEq] at h
      rcases freeGet_cases s with ⟨k2, hc, h1, h2⟩ | ⟨hc, ht, h1, h2⟩ | ⟨hc, ht, h1, h2⟩
      · rw [h1] at h
        cases h
        exact Or.inl hf
      · rw [h1] at h
        cases h
        exact Or.inl hf
      · rw [h1] at h
        cases h
        exact Or.inl (FSet_append_unres_elim k hf)
  | contE k2 =>
      obtain ⟨sn, hk2, hsnset, hcase⟩ := contFire_cases h
      rcases hcase with ⟨ht, hs1⟩ | ⟨ht, hs1⟩
      · exact Or.inr ht
      · rw [hs1] at hf
        exact Or.inl (FSet_set_chain_elim hk2 k hf)

/-- Effect of any scheduler step on the task list: unchanged, a pending task
appended, a pending task settled, or a settled task marked removed. -/
lemma barStep_tasks {s s1 : PromiseBarrier} {e : BarEvent}
    (h : barStep s e = some s1) :
    s1.tasks = s.tasks ∨ s1.tasks = s.tasks ++ [TaskSt.pendingT] ∨
    (∃ i ok, s.tasks[i]? = some TaskSt.pendingT ∧
        s1.tasks = s.tasks.set i (TaskSt.settledT ok)) ∨
    (∃ i ok, s.tasks[i]? = some (TaskSt.settledT ok) ∧
        s1.tasks = s.tasks.set i (TaskSt.removedT ok)) := by
  cases e with
  | addT =>
      simp only [barStep, Option.some.injEq] at h
      cases h
      exact Or.inr (Or.inl rfl)
  | settleT i ok =>
      simp only [barStep] at h
      split at h
      · rename_i hg
        cases h
        exact Or.inr (Or.inr (Or.inl ⟨i, ok, hg, rfl⟩))
      · exact absurd h (by simp)
  | removeT i =>
      simp only [barStep] at h
      split at h
      · rename_i ok hg
        cases h
        exact Or.inr (Or.inr (Or.inr ⟨i, ok, hg, rfl⟩))
      · exact absurd h (by simp)
  | freeReadE =>
      simp only [barStep, Option.some.injEq] at h
      rcases freeGet_cases s with ⟨k2, hc, h1, h2⟩ | ⟨hc, ht, h1, h2⟩ | ⟨hc, ht, h1, h2⟩ <;>
          rw [h1] at h <;> cases h
      · exact Or.inl rfl
      · exact Or.inl rfl
      · exact Or.inl rfl
  | contE k2 =>
      obtain ⟨sn, hk2, hsnset, hcase⟩ := contFire_cases h
      rcases hcase with ⟨ht, hs1⟩ | ⟨ht, hs1⟩ <;> rw [hs1] <;> exact Or.inl rfl

/-- Task settledness is characterized by the task entry. -/
lemma jsSettledB_true_iff {s : PromiseBarrier} {j : Nat} :
    jsSettledB s j = true ↔ ∃ t, s.tasks[j]? = some t ∧ t ≠ TaskSt.pendingT := by
  unfold jsSettledB
  cases ht : s.tasks[j]? with
  | none => simp
  | some t => cases t <;> simp [ht] <;> simp_all

/-- Settled tasks stay settled across every scheduler step. -/
lemma barStep_settled_mono {s s1 : PromiseBarrier} {e : BarEvent} {j : Nat}
    (h : barStep s e = some s1) (hj : jsSettledB s j = true) :
    jsSettledB s1 j = true := by
  obtain ⟨t, hjt, hne⟩ := jsSettledB_true_iff.mp hj
  apply jsSettledB_true_iff.mpr
  rcases barStep_tasks h with ht | ht | ⟨i, ok, hi, ht⟩ | ⟨i, ok, hi, ht⟩
  · exact ⟨t, ht ▸ hjt, hne⟩
  · refine ⟨t, ?_, hne⟩
    rw [ht, append_lookup]
    have : j < s.tasks.length := getElemQ_lt hjt
    rw [if_neg (by omega)]
    exact hjt
  · by_cases he : i = j
    · subst he
      rw [hi] at hjt
      simp only [Option.some.injEq] at hjt
      exact absurd hjt.symm hne
    · refine ⟨t, ?_, hne⟩
      rw [ht, List.getElem?_set, if_neg he]
      exact hjt
  · by_cases he : i = j
    · subst he
      refine ⟨TaskSt.removedT ok, ?_, by simp⟩
      rw [ht, List.getElem?_set, if_pos rfl, if_pos (getElemQ_lt hi)]
    · refine ⟨t, ?_, hne⟩
      rw [ht, List.getElem?_set, if_neg he]
      exact hjt

/-- The task list never shrinks. -/
lemma barStep_len {s s1 : PromiseBarrier} {e : BarEvent}
    (h : barStep s e = some s1) : s.tasks.length ≤ s1.tasks.length := by
  rcases barStep_tasks h with ht | ht | ⟨i, ok, hi, ht⟩ | ⟨i, ok, hi, ht⟩ <;>
    simp [ht]

/-- When the tracked set is empty, every existing task has settled (every
add puts the task in the set; only the post-settlement removal deletes it). -/
lemma tracked_empty_settled {s : PromiseBarrier} (h : trackedIds s = [])
    {j : Nat} (hj : j < s.tasks.length) : jsSettledB s j = true := by
  apply jsSettledB_true_iff.mpr
  cases ht : s.tasks[j]? with
  | none =>
      rw [List.getElem?_eq_getElem hj] at ht
      simp at ht
  | some t =>
      refine ⟨t, rfl, ?_⟩
      intro hp
      subst hp
      have hmem : j ∈ trackedIds s := by
        apply List.mem_filter.mpr
        refine ⟨List.mem_range.mpr hj, ?_⟩
        rw [ht]
      rw [h] at hmem
      simp at hmem

lemma barFold_len :
    ∀ (es : List BarEvent) (s0 s1 : PromiseBarrier),
      es.foldlM barStep s0 = some s1 → s0.tasks.length ≤ s1.tasks.length := by
  intro es
  induction es with
  | nil =>
      intro s0 s1 h
      simp only [List.foldlM_nil, pure, Option.some.injEq] at h
      exact h ▸ le_refl _
  | cons e es ih =>
      intro s0 s1 h
      rw [List.foldlM_cons] at h
      rcases Option.bind_eq_some.mp h with ⟨m, hm, hrest⟩
      exact (barStep_len hm).trans (ih m s1 hrest)

lemma barFold_settled_mono :
    ∀ (es : List BarEvent) (s0 s1 : PromiseBarrier) (j : Nat),
      es.foldlM barStep s0 = some s1 → jsSettledB s0 j = true →
      jsSettledB s1 j = true := by
  intro es
  induction es with
  | nil =>
      intro s0 s1 j h hj
      simp only [List.foldlM_nil, pure, Option.some.injEq] at h
      exact h ▸ hj
  | cons e es ih =>
      intro s0 s1 j h hj
      rw [List.foldlM_cons] at h
      rcases Option.bind_eq_some.mp h with ⟨m, hm, hrest⟩
      exact ih m s1 j hrest (barStep_settled_mono hm hj)

/-- Core of the barrier guarantee: if future k is not yet settled in a state
where task j already exists, then in any later state in which k has settled,
task j has settled too.  The only step that can newly settle a future is a
then-callback that found the tracked set empty, and an empty set means every
existing task has settled. -/
lemma barFold_included :
    ∀ (es : List BarEvent) (s0 s1 : PromiseBarrier) (k j : Nat),
      es.foldlM barStep s0 = some s1 → j < s0.tasks.length →
      ¬ FSet s0.futs k → FSet s1.futs k → jsSettledB s1 j = true := by
  intro es
  induction es with
  | nil =>
      intro s0 s1 k j h hj hnf hf
      simp only [List.foldlM_nil, pure, Option.some.injEq] at h
      exact absurd (h ▸ hf) hnf
  | cons e es ih =>
      intro s0 s1 k j h hj hnf hf
      rw [List.foldlM_cons] at h
      rcases Option.bind_eq_some.mp h with ⟨m, hm, hrest⟩
      by_cases hmid : FSet m.futs k
      · rcases barStep_FSet_back hm hmid with hback | hempty
        · exact absurd hback hnf
        · have hj0 : jsSettledB s0 j = true := tracked_empty_settled hempty hj
          exact barFold_settled_mono es m s1 j hrest (barStep_settled_mono hm hj0)
      · exact ih m s1 k j hrest (hj.trans_le (barStep_len hm)) hmid hf

/-- Cache invariant: a non-null m_cachedFree always points at an existing,
still unresolved future (the cache is nulled in the same callback that
resolves its future). -/
def BarInv (s : PromiseBarrier) : Prop :=
  ∀ k, s.m_cachedFree = some k →
    ∃ sn, s.futs[k]? = some { snap := sn, res := FRes.unresolved }

lemma barStep_barInv {s s1 : PromiseBarrier} {e : BarEvent}
    (hinv : BarInv s) (h : barStep s e = some s1) : BarInv s1 := by
  cases e with
  | addT =>
      simp only [barStep, Option.some.injEq] at h
      cases h
      exact hinv
  | settleT i ok =>
      simp only [barStep] at h
      split at h
      · cases h; exact hinv
      · exact absurd h (by simp)
  | removeT i =>
      simp only [barStep] at h
      split at h
      · cases h; exact hinv
      · exact absurd h (by simp)
  | freeReadE =>
      simp only [barStep, Option.some.injEq] at h
      rcases freeGet_cases s with ⟨k2, hc, h1, h2⟩ | ⟨hc, ht, h1, h2⟩ | ⟨hc, ht, h1, h2⟩
      · rw [h1] at h; cases h; exact hinv
      · rw [h1] at h; cases h; exact hinv
      · rw [h1] at h
        cases h
        intro k hk
        simp only [Option.some.injEq] at hk
        subst hk
        refine ⟨trackedIds s, ?_⟩
        rw [append_lookup, if_pos rfl]
  | contE k2 =>
      obtain ⟨sn, hk2, hsnset, hcase⟩ := contFire_cases h
      rcases hcase with ⟨ht, hs1⟩ | ⟨ht, hs1⟩
      · rw [hs1]
        intro k hk
        simp at hk
      · rw [hs1]
        intro k hk
        simp only [Option.some.injEq] at hk
        subst hk
        refine ⟨trackedIds s, ?_⟩
        rw [append_set_lookup (getElemQ_lt hk2), if_neg (by
          have := getElemQ_lt hk2
          omega), if_pos rfl]

lemma barFold_barInv :
    ∀ (es : List BarEvent) (s0 s1 : PromiseBarrier), BarInv s0 →
      es.foldlM barStep s0 = some s1 → BarInv s1 := by
  intro es
  induction es with
  | nil =>
      intro s0 s1 h h2
      simp only [List.foldlM_nil, pure, Option.some.injEq] at h2
      exact h2 ▸ h
  | cons e es ih =>
      intro s0 s1 h h2
      rw [List.foldlM_cons] at h2
      rcases Option.bind_eq_some.mp h2 with ⟨m, hm, hrest⟩
      exact ih m s1 (barStep_barInv h hm) hrest

lemma barRun_barInv {es : List BarEvent} {s : PromiseBarrier}
    (h : barRun es = some s) : BarInv s :=
  barFold_barInv es PromiseBarrier.init s (by intro k hk; simp [PromiseBarrier.init] at hk) h

/-- Claim C5 counterexample: reading free with no tracked tasks does NOT
always return an already settled future.  After adding one task, reading free
(which caches a future), and letting the task settle and be removed, the
tracked set is empty, yet the free read returns the cached future 0, which is
still unresolved (its then-callback has not run): the returned future is not
settled at the moment of the read. -/
theorem C5_counterexample :
    barRun [BarEvent.addT, BarEvent.freeReadE, BarEvent.settleT 0 true,
        BarEvent.removeT 0] =
      some { tasks := [TaskSt.removedT true],
             futs := [{ snap := [0], res := FRes.unresolved }],
             m_cachedFree := some 0 } ∧
    trackedIds { tasks := [TaskSt.removedT true],
                 futs := [{ snap := [0], res := FRes.unresolved }],
                 m_cachedFree := some 0 } = [] ∧
    (freeGet { tasks := [TaskSt.removedT true],
               futs := [{ snap := [0], res := FRes.unresolved }],
               m_cachedFree := some 0 }).2 = FreeVal.fut 0 ∧
    ¬ FSet [{ snap := [0], res := FRes.unresolved }] 0 :=
  ⟨by decide, by decide, by decide,
   @FSet_not_unresolved [{ snap := [0], res := FRes.unresolved }] 0 [0] (by decide)⟩

/-- Claim C5 (amended): barrier convergence.  First part: when no cached free
wait is pending (m_cachedFree is null) and no tasks are tracked, reading free
returns an already settled promise.  Second part: a free read never hands out
an already settled future object: the future it returns is unresolved at the
moment of the read.  Third part (covers both "free resolves only once all N
added tasks have settled" and "a task added while the wait is pending is
included"): if task j exists while future k is not yet settled, then in any
later reachable state where k has settled, j has settled too.  Fourth part:
free does eventually resolve: a concrete run in which two tasks (one
rejecting) settle and are removed ends with the free future settled. -/
theorem C5_barrier_convergence :
    (∀ (es : List BarEvent) (s : PromiseBarrier), barRun es = some s →
        s.m_cachedFree = none → trackedIds s = [] →
        (freeGet s).2 = FreeVal.settledNow) ∧
    (∀ (es : List BarEvent) (s : PromiseBarrier) (k : Nat), barRun es = some s →
        (freeGet s).2 = FreeVal.fut k → ¬ FSet ((freeGet s).1).futs k) ∧
    (∀ (es1 es2 : List BarEvent) (s1 s2 : PromiseBarrier) (k j : Nat),
        barRun es1 = some s1 → barRun (es1 ++ es2) = some s2 →
        j < s1.tasks.length → ¬ FSet s1.futs k → FSet s2.futs k →
        jsSettledB s2 j = true) ∧
    (barRun [BarEvent.addT, BarEvent.addT, BarEvent.freeReadE,
        BarEvent.settleT 0 true, BarEvent.settleT 1 false, BarEvent.removeT 0,
        BarEvent.removeT 1, BarEvent.contE 0] =
      some { tasks := [TaskSt.removedT true, TaskSt.removedT false],
             futs := [{ snap := [0, 1], res := FRes.done }],
             m_cachedFree := none } ∧
      FSet [{ snap := [0, 1], res := FRes.done }] 0) := by
  refine ⟨?_, ?_, ?_, by decide, FSet.done 0 [0, 1] (by decide)⟩
  · intro es s hrun hc ht
    rcases freeGet_cases s with ⟨k2, hc2, h1, h2⟩ | ⟨hc2, ht2, h1, h2⟩ | ⟨hc2, ht2, h1, h2⟩
    · rw [hc] at hc2; exact absurd hc2 (by simp)
    · exact h2
    · exact absurd ht ht2
  · intro es s k hrun hv
    have hinv := barRun_barInv hrun
    rcases freeGet_cases s with ⟨k2, hc2, h1, h2⟩ | ⟨hc2, ht2, h1, h2⟩ | ⟨hc2, ht2, h1, h2⟩
    · rw [hv] at h2
      simp only [FreeVal.fut.injEq] at h2
      subst h2
      obtain ⟨sn, hsn⟩ := hinv k hc2
      rw [h1]
      exact FSet_not_unresolved hsn
    · rw [hv] at h2
      simp at h2
    · rw [hv] at h2
      simp only [FreeVal.fut.injEq] at h2
      subst h2
      rw [h1]
      apply @FSet_not_unresolved
          (s.futs ++ [({ snap := trackedIds s, res := FRes.unresolved } : FFut)])
          s.futs.length (trackedIds s)
      rw [append_lookup, if_pos rfl]
  · intro es1 es2 s1 s2 k j hrun1 hrun2 hj hnf hf
    unfold barRun at hrun2
    rw [List.foldlM_append] at hrun2
    rcases Option.bind_eq_some.mp hrun2 with ⟨m, hm, hrest⟩
    have hms : m = s1 := by
      unfold barRun at hrun1
      rw [hrun1] at hm
      exact (Option.some_inj.mp hm).symm
    subst hms
    exact barFold_included es2 m s2 k j hrest hj hnf hf

/-- Witness for C5: the theorem discharged on concrete runs: a fresh barrier
returns a settled free; a cached future handed out after one add is not yet
settled; a task that existed while future 0 was pending is settled once
future 0 settles. -/
theorem C5_witness :
    (freeGet PromiseBarrier.init).2 = FreeVal.settledNow ∧
    (¬ FSet ((freeGet { tasks := [TaskSt.pendingT],
                        futs := [{ snap := [0], res := FRes.unresolved }],
                        m_cachedFree := some 0 }).1).futs 0) ∧
    jsSettledB { tasks := [TaskSt.removedT true],
                 futs := [{ snap := [0], res := FRes.done }],
                 m_cachedFree := none } 0 = true :=
  ⟨C5_barrier_convergence.1 [] PromiseBarrier.init (by decide) (by decide) (by decide),
   C5_barrier_convergence.2.1 [BarEvent.addT, BarEvent.freeReadE]
     { tasks := [TaskSt.pendingT],
       futs := [{ snap := [0], res := FRes.unresolved }],
       m_cachedFree := some 0 } 0 (by decide) (by decide),
   C5_barrier_convergence.2.2.1 [BarEvent.addT, BarEvent.freeReadE]
     [BarEvent.settleT 0 true, BarEvent.removeT 0, BarEvent.contE 0]
     { tasks := [TaskSt.pendingT],
       futs := [{ snap := [0], res := FRes.unresolved }],
       m_cachedFree := some 0 }
     { tasks := [TaskSt.removedT true],
       futs := [{ snap := [0], res := FRes.done }],
       m_cachedFree := none }
     0 0 (by decide) (by decide) (by decide)
     (@FSet_not_unresolved [{ snap := [0], res := FRes.unresolved }] 0 [0] (by decide))
     (FSet.done 0 [0] (by decide))⟩

/-- Outcome channel of a JavaScript promise: fulfilled or rejected. -/
inductive POutcome where
  | fulfilledO : POutcome
  | rejectedO : POutcome
deriving DecidableEq

/-- Outcome of p.catch with a handler that returns undefined and never
throws: a fulfillment passes through; a rejection is handled, giving a
fulfilled promise. -/
def pCatchNoop : POutcome → POutcome
  | POutcome.fulfilledO => POutcome.fulfilledO
  | POutcome.rejectedO => POutcome.fulfilledO

/-- Outcome of p.finally with a callback that never throws: the outcome of p
passes through unchanged. -/
def pFinallyKeep : POutcome → POutcome := fun o => o

/-- Outcome of the detached chain add() builds on a tracked task:
task.catch(noop).finally(remove). -/
def addChainOutcome (t : POutcome) : POutcome := pFinallyKeep (pCatchNoop t)

/-- Outcome of Promise.allSettled over any finite list of tasks: it never
rejects, whatever the tasks do. -/
def pAllSettled (ts : List POutcome) : POutcome := POutcome.fulfilledO

/-- Outcome of src.then(cb) where the callback's result has the given
outcome: a rejected source rejects the result (no rejection handler); a
fulfilled source takes the callback's outcome. -/
def pThen (src cb : POutcome) : POutcome :=
  match src with
  | POutcome.rejectedO => POutcome.rejectedO
  | POutcome.fulfilledO => cb

/-- Outcome of the future the free getter builds:
Promise.allSettled(tracked).then(recheck), where the recheck callback only
reads and writes fields and returns a promise, never throwing. -/
def freeOutcome (ts : List POutcome) : POutcome :=
  pThen (pAllSettled ts) POutcome.fulfilledO

/-- Claim C8: tracked-task failure is invisible through the barrier.  First
part: for any settled task, fulfilled or rejected alike, the removal callback
is enabled and removes exactly that task from the tracked set.  Second and
third parts: the detached chain built by add never rejects (the no-op catch
swallows the task's rejection), and the future built by the free getter never
rejects (allSettled never rejects and the recheck callback never throws), so
neither add nor free ever surfaces a tracked task's rejection. -/
theorem C8_error_swallowing :
    (∀ (s : PromiseBarrier) (i : Nat) (ok : Bool),
        s.tasks[i]? = some (TaskSt.settledT ok) →
        barStep s (BarEvent.removeT i) =
          some { s with tasks := s.tasks.set i (TaskSt.removedT ok) } ∧
        i ∉ trackedIds { s with tasks := s.tasks.set i (TaskSt.removedT ok) }) ∧
    (∀ o, addChainOutcome o = POutcome.fulfilledO) ∧
    (∀ ts, freeOutcome ts = POutcome.fulfilledO) := by
  refine ⟨?_, ?_, ?_⟩
  · intro s i ok hi
    constructor
    · simp [barStep, hi]
    · intro hmem
      have hpred := (List.mem_filter.mp hmem).2
      rw [List.getElem?_set, if_pos rfl, if_pos (getElemQ_lt hi)] at hpred
      simp at hpred
  · intro o
    cases o <;> rfl
  · intro ts
    rfl

/-- Witness for C8: removal of a rejected settled task, discharged by the
theorem. -/
theorem C8_witness :
    barStep { tasks := [TaskSt.settledT false], futs := [], m_cachedFree := none }
        (BarEvent.removeT 0) =
      some { tasks := [TaskSt.settledT false].set 0 (TaskSt.removedT false),
             futs := [], m_cachedFree := none } ∧
    0 ∉ trackedIds { tasks := [TaskSt.settledT false].set 0 (TaskSt.removedT false),
                     futs := ([] : List FFut), m_cachedFree := none } :=
  C8_error_swallowing.1
    { tasks := [TaskSt.settledT false], futs := [], m_cachedFree := none } 0 false
    (by decide)
